import Mathlib

/-!
Verification of the Silver transformation core of the `coreason_etl_epar`
pipeline: a shallow embedding in Lean 4 of the field cleaner / status
normalizer, the row hasher, the SCD2 history merger
(`transform_silver.py`) and the fuzzy entity resolver
(`transform_enrich.py`), together with theorems settling the spec's
claims about them.

Modelling conventions:
* Python strings are Lean `String`s (inputs of interest are ASCII, so
  `encode()` bytes are the characters' code points).
* `hashlib.md5` is embedded as an executable MD5 over byte lists.
* Polars dataframes are lists of rows; a named-column frame carries its
  schema (`cols`) separately so that empty-with-schema frames exist.
* Python `float` arithmetic in the Jaro-Winkler distance is modelled as
  exact rational arithmetic over `ℚ`.
* Timestamps (`datetime`) are modelled as integers ordered as usual.
-/

set_option maxRecDepth 100000

namespace EparEtl

/-! ## MD5 (embedding of `hashlib.md5(x.encode()).hexdigest()`) -/

namespace MD5

def w32 : Nat := 4294967296

/-- Rotate a 32-bit word left by `n` bits. -/
def rotl (x n : Nat) : Nat := (x * 2 ^ n + x / 2 ^ (32 - n)) % w32

/-- 32-bit bitwise complement. -/
def notW (x : Nat) : Nat := 4294967295 - x

def fF (b c d : Nat) : Nat := (b &&& c) ||| (notW b &&& d)

def fG (b c d : Nat) : Nat := (b &&& d) ||| (c &&& notW d)

def fH (b c d : Nat) : Nat := b ^^^ c ^^^ d

def fI (b c d : Nat) : Nat := c ^^^ (b ||| notW d)

/-- The 64 MD5 round constants `floor(abs(sin(i+1)) * 2^32)`. -/
def kTable : List Nat :=
  [0xd76aa478, 0xe8c7b756, 0x242070db, 0xc1bdceee,
   0xf57c0faf, 0x4787c62a, 0xa8304613, 0xfd469501,
   0x698098d8, 0x8b44f7af, 0xffff5bb1, 0x895cd7be,
   0x6b901122, 0xfd987193, 0xa679438e, 0x49b40821,
   0xf61e2562, 0xc040b340, 0x265e5a51, 0xe9b6c7aa,
   0xd62f105d, 0x02441453, 0xd8a1e681, 0xe7d3fbc8,
   0x21e1cde6, 0xc33707d6, 0xf4d50d87, 0x455a14ed,
   0xa9e3e905, 0xfcefa3f8, 0x676f02d9, 0x8d2a4c8a,
   0xfffa3942, 0x8771f681, 0x6d9d6122, 0xfde5380c,
   0xa4beea44, 0x4bdecfa9, 0xf6bb4b60, 0xbebfbc70,
   0x289b7ec6, 0xeaa127fa, 0xd4ef3085, 0x04881d05,
   0xd9d4d039, 0xe6db99e5, 0x1fa27cf8, 0xc4ac5665,
   0xf4292244, 0x432aff97, 0xab9423a7, 0xfc93a039,
   0x655b59c3, 0x8f0ccc92, 0xffeff47d, 0x85845dd1,
   0x6fa87e4f, 0xfe2ce6e0, 0xa3014314, 0x4e0811a1,
   0xf7537e82, 0xbd3af235, 0x2ad7d2bb, 0xeb86d391]

/-- The 64 MD5 per-round left-rotation amounts. -/
def sTable : List Nat :=
  [7, 12, 17, 22, 7, 12, 17, 22, 7, 12, 17, 22, 7, 12, 17, 22,
   5, 9, 14, 20, 5, 9, 14, 20, 5, 9, 14, 20, 5, 9, 14, 20,
   4, 11, 16, 23, 4, 11, 16, 23, 4, 11, 16, 23, 4, 11, 16, 23,
   6, 10, 15, 21, 6, 10, 15, 21, 6, 10, 15, 21, 6, 10, 15, 21]

/-- Little-endian byte encoding of `x` on `n` bytes. -/
def toLE : Nat → Nat → List Nat
  | 0, _ => []
  | n + 1, x => (x % 256) :: toLE n (x / 256)

/-- Group a byte list into 32-bit little-endian words. -/
def toWords : List Nat → List Nat
  | a :: b :: c :: d :: rest => (a + 256 * b + 65536 * c + 16777216 * d) :: toWords rest
  | _ => []

/-- Group a word list into 16-word message blocks. -/
def chunk16 : List Nat → List (List Nat)
  | w0 :: w1 :: w2 :: w3 :: w4 :: w5 :: w6 :: w7 ::
    w8 :: w9 :: w10 :: w11 :: w12 :: w13 :: w14 :: w15 :: rest =>
      [w0, w1, w2, w3, w4, w5, w6, w7, w8, w9, w10, w11, w12, w13, w14, w15] :: chunk16 rest
  | _ => []

/-- MD5 padding: `0x80`, zeros to 56 mod 64, then the 64-bit bit length. -/
def padBytes (msg : List Nat) : List Nat :=
  let len := msg.length
  let padLen := (56 + 64 - (len + 1) % 64) % 64
  msg ++ [0x80] ++ List.replicate padLen 0 ++ toLE 8 ((len * 8) % 2 ^ 64)

structure St where
  a : Nat
  b : Nat
  c : Nat
  d : Nat

/-- One of the 64 MD5 rounds. -/
def md5Step (m : List Nat) (i : Nat) (st : St) : St :=
  let fg : Nat × Nat :=
    if i < 16 then (fF st.b st.c st.d, i)
    else if i < 32 then (fG st.b st.c st.d, (5 * i + 1) % 16)
    else if i < 48 then (fH st.b st.c st.d, (3 * i + 5) % 16)
    else (fI st.b st.c st.d, (7 * i) % 16)
  let tmp := rotl ((st.a + fg.1 + kTable.getD i 0 + m.getD fg.2 0) % w32) (sTable.getD i 0)
  ⟨st.d, (st.b + tmp) % w32, st.b, st.c⟩

/-- Run rounds `i, i+1, ...` while fuel lasts (structural recursion so the
kernel can evaluate digests). -/
def md5Loop (m : List Nat) : Nat → Nat → St → St
  | 0, _, st => st
  | fuel + 1, i, st => md5Loop m fuel (i + 1) (md5Step m i st)

/-- Process one 16-word block. -/
def md5Block (st : St) (m : List Nat) : St :=
  let r := md5Loop m 64 0 st
  ⟨(st.a + r.a) % w32, (st.b + r.b) % w32, (st.c + r.c) % w32, (st.d + r.d) % w32⟩

def md5Blocks : St → List (List Nat) → St
  | st, [] => st
  | st, m :: rest => md5Blocks (md5Block st m) rest

/-- The 16-byte MD5 digest of a byte list. -/
def md5Digest (msg : List Nat) : List Nat :=
  let st := md5Blocks ⟨0x67452301, 0xefcdab89, 0x98badcfe, 0x10325476⟩
    (chunk16 (toWords (padBytes msg)))
  toLE 4 st.a ++ toLE 4 st.b ++ toLE 4 st.c ++ toLE 4 st.d

/-- The lowercase hex digit for `n < 16` (48 is the code of `0`, 87 + 10
that of `a`). -/
def hexDigit (n : Nat) : Char :=
  if n < 10 then Char.ofNat (48 + n) else Char.ofNat (87 + n)

def byteHex (b : Nat) : String := String.mk [hexDigit (b / 16), hexDigit (b % 16)]

/-- Bytes of an ASCII string (UTF-8 agrees with code points there). -/
def strBytes (s : String) : List Nat := s.toList.map Char.toNat

/-- `hashlib.md5(s.encode()).hexdigest()` for ASCII `s`. -/
def md5Hex (s : String) : String := String.join ((md5Digest (strBytes s)).map byteHex)

end MD5

/-! ## Field cleaner / status normalizer (`transform_silver.py` lines 8-110)

String primitives are embedded over character lists so that every
definition evaluates by kernel reduction. -/

/-- ASCII whitespace (space, tab, newline, carriage return), as stripped
by `str.strip_chars()` on the data at hand. -/
def isSpaceChar (c : Char) : Bool :=
  c.toNat = 32 || c.toNat = 9 || c.toNat = 10 || c.toNat = 13

/-- `str.strip_chars()`: drop leading and trailing whitespace. -/
def trimChars (l : List Char) : List Char :=
  ((l.dropWhile isSpaceChar).reverse.dropWhile isSpaceChar).reverse

/-- `str.to_uppercase()` on ASCII text. -/
def upperChar (c : Char) : Char :=
  if 'a' ≤ c && c ≤ 'z' then Char.ofNat (c.toNat - 32) else c

/-- `str.lower()` on ASCII text (kernel-evaluable, unlike
`String.toLower`). -/
def lowerChar (c : Char) : Char :=
  if 'A' ≤ c && c ≤ 'Z' then Char.ofNat (c.toNat + 32) else c

def lowerStr (s : String) : String := String.mk (s.toList.map lowerChar)

/-- Does `l` start with `p`? -/
def isPrefixList (p l : List Char) : Bool :=
  match p, l with
  | [], _ => true
  | _ :: _, [] => false
  | a :: ps, b :: ls => a == b && isPrefixList ps ls

/-- `str.contains(pat)` with a literal pattern: substring containment. -/
def containsSub (p : List Char) : List Char → Bool
  | [] => isPrefixList p []
  | c :: t => isPrefixList p (c :: t) || containsSub p t

/-- Embedding of `get_status_normalization_expr` applied to one status
string: trim, uppercase, then the prioritized `when/then` chain
(`REFUSED` → `WITHDRAWN` → `SUSPENDED` → `CONDITIONAL` → `EXCEPTIONAL` →
`AUTHORISED` guarded by the absence of `NOT ` → otherwise `UNKNOWN`). -/
def normalizeStatus (s : String) : String :=
  let col := (trimChars s.toList).map upperChar
  if containsSub "REFUSED".toList col then "REJECTED"
  else if containsSub "WITHDRAWN".toList col then "WITHDRAWN"
  else if containsSub "SUSPENDED".toList col then "SUSPENDED"
  else if containsSub "CONDITIONAL".toList col then "CONDITIONAL_APPROVAL"
  else if containsSub "EXCEPTIONAL".toList col then "EXCEPTIONAL_CIRCUMSTANCES"
  else if containsSub "AUTHORISED".toList col && !containsSub "NOT ".toList col then "APPROVED"
  else "UNKNOWN"

/-- Replace every occurrence of character `a` by `b`
(`str.replace_all(r"\+", "/")` on a one-character literal class). -/
def replaceChar (a b : Char) (l : List Char) : List Char :=
  l.map (fun c => if c == a then b else c)

/-- `str.split(sep)` on a one-character separator. -/
def splitChar (sep : Char) (l : List Char) : List String :=
  ((l.splitOn sep).map fun seg => String.mk seg)

/-- Embedding of the substance normalization of `clean_epar_bronze`
(lines 72-81): replace `+` by `/`, split on `/`, strip each element,
drop empty elements.  Note: no sorting takes place. -/
def cleanSubstance (s : String) : List String :=
  (((splitChar '/' (replaceChar '+' '/' s.toList)).map
      fun t => String.mk (trimChars t.toList)).filter
    fun t => t.length > 0)

/-! ## Row hasher (`generate_row_hash`, `transform_silver.py` lines 113-139)

A polars frame is a column list (name and dtype — the relevant dtypes
here are `String` and `List(String)`) together with rows of cells
positionally aligned with the columns. -/

inductive DType where
  | str
  | strList
deriving DecidableEq, Repr

inductive Cell where
  | null
  | str (s : String)
  | strList (xs : List String)
deriving DecidableEq, Repr

structure DataFrame where
  cols : List (String × DType)
  rows : List (List Cell)
deriving DecidableEq, Repr

/-- `df.schema.get(c)`: the dtype of column `c`, `none` when absent. -/
def colDType : List (String × DType) → String → Option DType
  | [], _ => none
  | (name, dt) :: ps, c => if name == c then some dt else colDType ps c

/-- The string contribution of column `c` of one row to the hash input:
`pl.lit("")` when the column is absent from the schema,
`pl.col(c).list.join(";").fill_null("")` for a list column, and
`pl.col(c).cast(pl.String).fill_null("")` otherwise.  The schema and the
row are walked together since cells are positional. -/
def hashExprVal : List (String × DType) → List Cell → String → String
  | [], _, _ => ""
  | (name, dt) :: ps, row, c =>
      if name == c then
        (match dt, row.head? with
         | DType.strList, some (Cell.strList xs) => String.intercalate ";" xs
         | DType.str, some (Cell.str s) => s
         | _, _ => "")
      else hashExprVal ps row.tail c

/-- `pl.concat_str(exprs, separator="|")` over the hash columns. -/
def rowPrehash (cols : List (String × DType)) (columns : List String)
    (row : List Cell) : String :=
  String.intercalate "|" (columns.map (hashExprVal cols row))

/-- Embedding of `generate_row_hash`: append a `row_hash` column holding
the MD5 hex digest of the `|`-joined hash-column strings of each row. -/
def generate_row_hash (df : DataFrame) (columns : List String) : DataFrame :=
  ⟨df.cols ++ [("row_hash", DType.str)],
   df.rows.map fun r => r ++ [Cell.str (MD5.md5Hex (rowPrehash df.cols columns r))]⟩

/-! ## SCD2 history merger (`apply_scd2`, `transform_silver.py` lines 142-219)

The merger is generic in the business columns: a snapshot row is a
business key (the `primary_key` column, a string) plus a business
payload `α`; `generate_row_hash` restricted to the declared hash columns
is abstracted as a digest `hashFn : α → String` of the payload.  A
history row additionally carries the four SCD2 columns.  The final
`select`/`cast` to the history schema is the identity on this typed
model (extra snapshot-only columns are the part of `α` the hash ignores;
type drift is out of scope). -/

structure SnapRow (α : Type) where
  key : String
  data : α
deriving DecidableEq, Repr

structure HistRow (α : Type) where
  key : String
  data : α
  row_hash : String
  valid_from : Int
  valid_to : Option Int
  is_current : Bool
deriving DecidableEq, Repr

/-- Keep the first occurrence per key (`unique(subset=[k], keep="first")`
and the deterministic `unique(subset=["marketing_authorisation_holder"],
keep="first")` of the resolver). -/
def uniqueByAux {α : Type} (key : α → String) (seen : List String) : List α → List α
  | [] => []
  | x :: xs =>
      if seen.contains (key x) then uniqueByAux key seen xs
      else x :: uniqueByAux key (key x :: seen) xs

def uniqueBy {α : Type} (key : α → String) (l : List α) : List α := uniqueByAux key [] l

/-- `current_snapshot.unique(subset=[primary_key], keep="first")`. -/
def dedupKey {α : Type} (l : List (SnapRow α)) : List (SnapRow α) :=
  uniqueBy SnapRow.key l

/-- Left join (lines 185-187) of the hashed snapshot with the current
history restricted to `[primary_key, row_hash]`: one output row per
matching current row, or a single row with a null `hist_row_hash`. -/
def leftJoinHash {α : Type} (snap : List (SnapRow α × String))
    (cur : List (HistRow α)) : List (SnapRow α × String × Option String) :=
  snap.flatMap fun p =>
    if (cur.filter fun c => c.key == p.1.key).isEmpty then [(p.1, p.2, (none : Option String))]
    else (cur.filter fun c => c.key == p.1.key).map fun c => (p.1, p.2, some c.row_hash)

/-- A fresh current version of a hashed snapshot row:
`valid_from = ingestion_ts`, `valid_to = null`, `is_current = true`. -/
def mkOpenRow {α : Type} (ts : Int) (p : SnapRow α × String) : HistRow α :=
  ⟨p.1.key, p.1.data, p.2, ts, none, true⟩

/-- `snapshot_hashed` (lines 167-168): dedup then hash. -/
def snapshot_hashed {α : Type} (current_snapshot : List (SnapRow α)) (hashFn : α → String) :
    List (SnapRow α × String) :=
  (dedupKey current_snapshot).map fun r => (r, hashFn r.data)

/-- `current_history = history.filter(pl.col("is_current"))`. -/
def current_history {α : Type} (history : List (HistRow α)) : List (HistRow α) :=
  history.filter fun r => r.is_current

/-- `closed_history = history.filter(~pl.col("is_current"))`. -/
def closed_history {α : Type} (history : List (HistRow α)) : List (HistRow α) :=
  history.filter fun r => !r.is_current

/-- `new_records`: joined rows whose `hist_row_hash` is null. -/
def new_records {α : Type} (joined : List (SnapRow α × String × Option String)) :
    List (SnapRow α × String × Option String) :=
  joined.filter fun t => t.2.2.isNone

/-- `changed_records`: joined rows whose `hist_row_hash` is non-null and
differs from `row_hash`. -/
def changed_records {α : Type} (joined : List (SnapRow α × String × Option String)) :
    List (SnapRow α × String × Option String) :=
  joined.filter fun t => t.2.2.isSome && !(t.2.2 == some t.2.1)

/-- `deleted_keys`: current keys anti-joined with the snapshot keys. -/
def deleted_keys {α : Type} (cur : List (HistRow α)) (snapH : List (SnapRow α × String)) :
    List String :=
  (cur.filter fun c => !(snapH.any fun p => p.1.key == c.key)).map fun c => c.key

/-- `keys_to_close = pl.concat([changed_keys, deleted_keys]).unique()`. -/
def keys_to_close {α : Type} (joined : List (SnapRow α × String × Option String))
    (cur : List (HistRow α)) (snapH : List (SnapRow α × String)) : List String :=
  ((changed_records joined).map (fun t => t.1.key) ++ deleted_keys cur snapH).dedup

/-- `new_entries`: new and changed records as fresh current versions. -/
def new_entries {α : Type} (joined : List (SnapRow α × String × Option String))
    (ingestion_ts : Int) : List (HistRow α) :=
  (new_records joined ++ changed_records joined).map fun t =>
    (⟨t.1.key, t.1.data, t.2.1, ingestion_ts, none, true⟩ : HistRow α)

/-- Embedding of `apply_scd2`: bootstrap on empty history, otherwise the
union `closed_history ++ history_to_keep ++ closed_updates ++ new_entries`. -/
def apply_scd2 {α : Type} (current_snapshot : List (SnapRow α))
    (history : List (HistRow α)) (ingestion_ts : Int) (hashFn : α → String) :
    List (HistRow α) :=
  let sh := snapshot_hashed current_snapshot hashFn
  if history.isEmpty then
    sh.map (mkOpenRow ingestion_ts)
  else
    let cur := current_history history
    let joined := leftJoinHash sh cur
    let ktc := keys_to_close joined cur sh
    closed_history history
      ++ (cur.filter fun c => !ktc.contains c.key)
      ++ ((cur.filter fun c => ktc.contains c.key).map fun c =>
          { c with valid_to := some ingestion_ts, is_current := false })
      ++ new_entries joined ingestion_ts

/-- Number of current history rows carrying business key `k`. -/
def curCount {α : Type} (h : List (HistRow α)) (k : String) : Nat :=
  h.countP fun rw => rw.is_current && rw.key == k

/-- §3 invariant: at most one current row per business key. -/
def atMostOneCurrent {α : Type} (h : List (HistRow α)) : Prop :=
  ∀ k, curCount h k ≤ 1

/-! ## Jaro-Winkler (`transform_enrich.py` lines 8-69)

Python floats are modelled as exact rationals.  The matched flags of
`s1` (`s1_matches`), the used flags of `s2` (`s2_matches`) and the match
counter are produced by one pass; the transposition count pairs the
matched characters of `s1` in index order with those of `s2` in index
order, exactly as the source's second loop with its `k` pointer does. -/

/-- The inner `for j in range(start, end)` loop: the first index `j` in
the window whose `s2` character is unused and equals `c`.  Out-of-range
accesses cannot arise (the fuel is `end - start` with `end ≤ len2`). -/
def scanWindow (c : Char) (s2 : List Char) (used : List Bool) : Nat → Nat → Option Nat
  | _, 0 => none
  | j, fuel + 1 =>
      if used.getD j true then scanWindow c s2 used (j + 1) fuel
      else if s2.get? j == some c then some j
      else scanWindow c s2 used (j + 1) fuel

/-- The outer matching loop over `s1` (index `i`), returning the matched
flags of `s1`, the final used flags of `s2`, and the match count.  The
window is `start = max(0, i - mdist)` to `end = min(i + mdist + 1, len2)`
(computed in `Int` as in the source, truncated to `Nat`), scanned with
fuel `end - start`. -/
def matchLoop (s2 : List Char) (mdist : Int) :
    List Char → Nat → List Bool → List Bool × List Bool × Nat
  | [], _, used => ([], used, 0)
  | c :: rest, i, used =>
      match scanWindow c s2 used ((i : Int) - mdist).toNat
          ((min ((i : Int) + mdist + 1) (s2.length : Int)).toNat -
            ((i : Int) - mdist).toNat) with
      | some j =>
          ((true :: (matchLoop s2 mdist rest (i + 1) (used.set j true)).1,
            (matchLoop s2 mdist rest (i + 1) (used.set j true)).2.1,
            (matchLoop s2 mdist rest (i + 1) (used.set j true)).2.2 + 1))
      | none =>
          ((false :: (matchLoop s2 mdist rest (i + 1) used).1,
            (matchLoop s2 mdist rest (i + 1) used).2.1,
            (matchLoop s2 mdist rest (i + 1) used).2.2))

/-- The Winkler common leading-character count, capped by the fuel
(called with fuel 4: `range(min(len1, len2, 4))` with `break`). -/
def commonPfx : List Char → List Char → Nat → Nat
  | a :: as, b :: bs, fuel + 1 => if a == b then 1 + commonPfx as bs fuel else 0
  | _, _, _ => 0

/-- The transposition count: pair the matched characters of `s1` in
index order with the matched characters of `s2` in index order (exactly
the pairing the source's second loop builds with its `k` pointer), count
mismatching pairs and halve (`transpositions //= 2`). -/
def transCount (l1 l2 : List Char) (flags used : List Bool) : Nat :=
  (((((l1.zip flags).filter fun p => p.2).map fun p => p.1).zip
    (((l2.zip used).filter fun p => p.2).map fun p => p.1)).countP
      fun p => !(p.1 == p.2)) / 2

/-- The final score: the Jaro mean of the three ratios, plus the Winkler
boost `prefix * 0.1 * (1.0 - jaro)`. -/
def jwScore (m len1 len2 t pfx : Nat) : ℚ :=
  let jaro : ℚ := ((m : ℚ) / len1 + (m : ℚ) / len2 + ((m : ℚ) - t) / m) / 3
  jaro + pfx * (1 / 10) * (1 - jaro)

/-- Embedding of `jaro_winkler`. -/
def jaro_winkler (s1 s2 : String) : ℚ :=
  if s1 == s2 then 1
  else
    let l1 := s1.toList
    let l2 := s2.toList
    if l1.length = 0 ∨ l2.length = 0 then 0
    else
      let mdist : Int := (max l1.length l2.length : Int) / 2 - 1
      let res := matchLoop l2 mdist l1 0 (List.replicate l2.length false)
      if res.2.2 = 0 then 0
      else jwScore res.2.2 l1.length l2.length (transCount l1 l2 res.1 res.2.1)
        (commonPfx l1 l2 4)

/-! ## Fuzzy entity resolver (`enrich_epar`, `transform_enrich.py` lines 72-157)

EPAR rows are a product number, a holder name and an opaque payload;
SPOR registry rows a name and an organisation id.  `sort` is modelled by
the (stable) insertion sort over the decidable relation corresponding to
`sort(["score", "spor_id"], descending=[True, False])`; the claims are
insensitive to the order among rows tied on the full sort key. -/

structure EparRow (β : Type) where
  product_number : String
  marketing_authorisation_holder : String
  data : β
deriving DecidableEq, Repr

structure SporRow where
  name : String
  org_id : String
deriving DecidableEq, Repr

/-- A scored cross-join row (`mah_names × spor_renamed` plus `score`). -/
structure Cand where
  mah : String
  spor_name : String
  spor_id : String
  score : ℚ
deriving DecidableEq, Repr

/-- An output row: the input row plus the joined `spor_mah_id`. -/
structure EnrichedRow (β : Type) where
  row : EparRow β
  spor_mah_id : Option String
deriving DecidableEq, Repr

/-- The distinct holder names
(`lf.select("marketing_authorisation_holder").unique()`). -/
def mahNames {β : Type} (df : List (EparRow β)) : List String :=
  (df.map fun r => r.marketing_authorisation_holder).dedup

/-- The scored cross product, scoring lower-cased names with
`jaro_winkler`. -/
def crossScored (mahs : List String) (spor : List SporRow) : List Cand :=
  mahs.flatMap fun m =>
    spor.map fun o => ⟨m, o.name, o.org_id, jaro_winkler (lowerStr m) (lowerStr o.name)⟩

/-- Lexicographic (code-point) order on character lists: the string
comparison Python and polars use when sorting (kernel-evaluable, unlike
`String.le`, whose `ltb` is well-founded). -/
def strLeChars : List Char → List Char → Bool
  | a :: as, b :: bs => if a == b then strLeChars as bs else decide (a < b)
  | l, _ => l.isEmpty

/-- String `≤` as code-point lexicographic comparison. -/
def strLe (s1 s2 : String) : Bool := strLeChars s1.toList s2.toList

/-- `sort(["score", "spor_id"], descending=[True, False])`: score
descending, then registry id ascending. -/
def CandLE (a b : Cand) : Prop :=
  b.score < a.score ∨ (a.score = b.score ∧ strLe a.spor_id b.spor_id = true)

instance : DecidableRel CandLE := fun a b =>
  inferInstanceAs (Decidable (b.score < a.score ∨
    (a.score = b.score ∧ strLe a.spor_id b.spor_id = true)))

instance : IsTotal Cand CandLE where
  total a b := by
    have htot : ∀ l1 l2 : List Char, strLeChars l1 l2 = true ∨ strLeChars l2 l1 = true := by
      intro l1
      induction l1 with
      | nil => intro l2; exact Or.inl rfl
      | cons x xs ih =>
          intro l2
          cases l2 with
          | nil => exact Or.inr rfl
          | cons y ys =>
              unfold strLeChars
              by_cases hxy : x = y
              · subst hxy
                simp only [beq_self_eq_true, if_true]
                exact ih ys
              · rcases lt_or_gt_of_ne hxy with hlt | hgt
                · refine Or.inl ?_
                  rw [if_neg (by simp [hxy])]
                  exact decide_eq_true hlt
                · refine Or.inr ?_
                  have hyx : ¬ y = x := fun h => hxy h.symm
                  rw [if_neg (by simp [hyx])]
                  exact decide_eq_true hgt
    unfold CandLE
    rcases lt_trichotomy a.score b.score with h | h | h
    · exact Or.inr (Or.inl h)
    · rcases htot a.spor_id.toList b.spor_id.toList with hs | hs
      · exact Or.inl (Or.inr ⟨h, hs⟩)
      · exact Or.inr (Or.inr ⟨h.symm, hs⟩)
    · exact Or.inl (Or.inl h)

instance : IsTrans Cand CandLE where
  trans a b c hab hbc := by
    have htr : ∀ l1 l2 l3 : List Char, strLeChars l1 l2 = true →
        strLeChars l2 l3 = true → strLeChars l1 l3 = true := by
      intro l1
      induction l1 with
      | nil => intro l2 l3 _ _; rfl
      | cons x xs ih =>
          intro l2 l3 h12 h23
          cases l2 with
          | nil => exact absurd h12 (by simp [strLeChars])
          | cons y ys =>
              cases l3 with
              | nil => exact absurd h23 (by simp [strLeChars])
              | cons z zs =>
                  unfold strLeChars at h12 h23 ⊢
                  by_cases hxy : x = y
                  · subst hxy
                    rw [if_pos (by simp)] at h12
                    by_cases hxz : x = z
                    · subst hxz
                      rw [if_pos (by simp)] at h23 ⊢
                      exact ih ys zs h12 h23
                    · rw [if_neg (by simp [hxz])] at h23 ⊢
                      exact h23
                  · rw [if_neg (by simp [hxy])] at h12
                    have hxy' : x < y := of_decide_eq_true h12
                    by_cases hyz : y = z
                    · subst hyz
                      rw [if_neg (by simp [hxy])]
                      exact decide_eq_true hxy'
                    · rw [if_neg (by simp [hyz])] at h23
                      have hyz' : y < z := of_decide_eq_true h23
                      have hxz' : x < z := lt_trans hxy' hyz'
                      rw [if_neg (by simp [ne_of_lt hxz'])]
                      exact decide_eq_true hxz'
    unfold CandLE at hab hbc ⊢
    rcases hab with h1 | ⟨h1, h1'⟩
    · rcases hbc with h2 | ⟨h2, h2'⟩
      · exact Or.inl (lt_trans h2 h1)
      · exact Or.inl (h2 ▸ h1)
    · rcases hbc with h2 | ⟨h2, h2'⟩
      · exact Or.inl (h1 ▸ h2)
      · exact Or.inr ⟨h1.trans h2, htr _ _ _ h1' h2'⟩

/-- The deterministic best-match table: filter `score > 0.90` (the
threshold written as the reduced rational 9/10), sort, keep the first
row per holder name. -/
def matchesFor {β : Type} (df : List (EparRow β)) (spor : List SporRow) : List Cand :=
  uniqueBy Cand.mah
    (List.insertionSort CandLE ((crossScored (mahNames df) spor).filter
      fun c => decide (mkRat 9 10 < c.score)))

/-- Final `sort("product_number")`. -/
def ProdLE {β : Type} (a b : EnrichedRow β) : Prop :=
  strLe a.row.product_number b.row.product_number = true

instance {β : Type} : DecidableRel (ProdLE (β := β)) := fun a b =>
  inferInstanceAs (Decidable (strLe a.row.product_number b.row.product_number = true))

/-- Embedding of `enrich_epar`: empty-registry short circuit (which skips
the final sort, line 100), otherwise the left join of the input with the
best-match table on the holder name, then the final sort. -/
def enrich_epar {β : Type} (df : List (EparRow β)) (spor : List SporRow) :
    List (EnrichedRow β) :=
  if spor.isEmpty then df.map fun r => ⟨r, none⟩
  else
    let ms := matchesFor df spor
    let joined := df.flatMap fun r =>
      let found := ms.filter fun c => c.mah == r.marketing_authorisation_holder
      if found.isEmpty then [(⟨r, none⟩ : EnrichedRow β)]
      else found.map fun c => (⟨r, some c.spor_id⟩ : EnrichedRow β)
    List.insertionSort ProdLE joined

/-- The id the resolver attaches to a row: the `spor_id` of the unique
best-match entry for its holder name, when one exists. -/
def resolvedId {β : Type} (df : List (EparRow β)) (spor : List SporRow)
    (r : EparRow β) : Option String :=
  if spor.isEmpty then none
  else ((matchesFor df spor).find? fun c =>
    c.mah == r.marketing_authorisation_holder).map fun c => c.spor_id

/-! ## Helper lemmas -/

lemma uniqueByAux_sublist {α : Type} (key : α → String) (seen : List String) :
    ∀ l : List α, List.Sublist (uniqueByAux key seen l) l := by
  intro l
  induction l generalizing seen with
  | nil => simp [uniqueByAux]
  | cons x xs ih =>
      simp only [uniqueByAux]
      split
      · exact (ih seen).cons x
      · exact (ih (key x :: seen)).cons₂ x

lemma uniqueByAux_countP_seen {α : Type} (key : α → String) (k : String) :
    ∀ (l : List α) (seen : List String), k ∈ seen →
      (uniqueByAux key seen l).countP (fun x => key x == k) = 0 := by
  intro l
  induction l with
  | nil => intro seen _; simp [uniqueByAux]
  | cons x xs ih =>
      intro seen hs
      simp only [uniqueByAux]
      split
      · exact ih seen hs
      · rename_i hnc
        have hmem : key x ∉ seen := by simpa using hnc
        have hxk : (key x == k) = false := by
          rw [beq_eq_false_iff_ne]
          rintro rfl
          exact hmem hs
        rw [List.countP_cons]
        simp only [hxk, if_false]
        simpa using ih (key x :: seen) (List.mem_cons_of_mem _ hs)

lemma uniqueByAux_countP_le_one {α : Type} (key : α → String) (k : String) :
    ∀ (l : List α) (seen : List String),
      (uniqueByAux key seen l).countP (fun x => key x == k) ≤ 1 := by
  intro l
  induction l with
  | nil => intro seen; simp [uniqueByAux]
  | cons x xs ih =>
      intro seen
      simp only [uniqueByAux]
      split
      · exact ih seen
      · rw [List.countP_cons]
        by_cases hk : (key x == k) = true
        · have hx : key x = k := by simpa using hk
          have h0 : (uniqueByAux key (key x :: seen) xs).countP (fun x => key x == k) = 0 :=
            uniqueByAux_countP_seen key k xs (key x :: seen) (hx ▸ List.mem_cons_self _ _)
          simp [hk, h0]
        · simp only [Bool.not_eq_true] at hk
          simp only [hk, if_false]
          simpa using ih (key x :: seen)

lemma uniqueBy_countP_le_one {α : Type} (key : α → String) (k : String) (l : List α) :
    (uniqueBy key l).countP (fun x => key x == k) ≤ 1 :=
  uniqueByAux_countP_le_one key k l []

lemma uniqueByAux_find? {α : Type} (key : α → String) (k : String) :
    ∀ (l : List α) (seen : List String), k ∉ seen →
      (uniqueByAux key seen l).find? (fun x => key x == k) =
        l.find? (fun x => key x == k) := by
  intro l
  induction l with
  | nil => intro seen _; simp [uniqueByAux]
  | cons x xs ih =>
      intro seen hs
      simp only [uniqueByAux]
      split
      · rename_i hc
        have hmem : key x ∈ seen := by simpa using hc
        have hxk : (key x == k) = false := by
          rw [beq_eq_false_iff_ne]
          rintro rfl
          exact hs hmem
        rw [ih seen hs]
        simp [List.find?_cons, hxk]
      · by_cases hk : (key x == k) = true
        · simp [List.find?_cons, hk]
        · simp only [Bool.not_eq_true] at hk
          simp only [List.find?_cons, hk]
          apply ih
          intro hc
          rcases List.mem_cons.mp hc with h | h
          · exact absurd (by simp [h] : (key x == k) = true) (by simp [hk])
          · exact hs h

lemma uniqueBy_find? {α : Type} (key : α → String) (k : String) (l : List α) :
    (uniqueBy key l).find? (fun x => key x == k) = l.find? (fun x => key x == k) :=
  uniqueByAux_find? key k l [] (by simp)

/-- A list in which `p` holds at most once filters down to its first
`p`-element. -/
lemma countP_le_one_filter {α : Type} (p : α → Bool) :
    ∀ l : List α, l.countP p ≤ 1 → l.filter p = (l.find? p).toList := by
  intro l
  induction l with
  | nil => simp
  | cons x xs ih =>
      intro hle
      rw [List.countP_cons] at hle
      by_cases hx : p x = true
      · have h0 : xs.countP p = 0 := by
          simp [hx] at hle
          exact List.countP_eq_zero.mpr fun a ha => by simp [hle a ha]
        have hnil : xs.filter p = [] := by
          rw [List.filter_eq_nil_iff]
          intro a ha hpa
          have := List.countP_pos_iff.mpr ⟨a, ha, hpa⟩
          omega
        simp [List.filter_cons, List.find?_cons, hx, hnil]
      · simp only [Bool.not_eq_true] at hx
        simp only [List.filter_cons, List.find?_cons, hx, Bool.false_eq_true, if_false]
        exact ih (by simpa [hx] using hle)

/-- Filtering a key-respecting `flatMap` by a key value restricts the
outer list first. -/
lemma filter_flatMap_key {A B : Type} (keyA : A → String) (keyB : B → String)
    (F : A → List B) (hF : ∀ a, ∀ b ∈ F a, keyB b = keyA a) (k : String) :
    ∀ l : List A, (l.flatMap F).filter (fun b => keyB b == k) =
      (l.filter fun a => keyA a == k).flatMap F := by
  intro l
  induction l with
  | nil => simp
  | cons a l ih =>
      simp only [List.flatMap_cons, List.filter_append, List.filter_cons]
      by_cases ha : keyA a == k
      · have : (F a).filter (fun b => keyB b == k) = F a := by
          rw [List.filter_eq_self]
          intro b hb
          rw [hF a b hb]
          exact ha
        simp [ha, this, ih]
      · have : (F a).filter (fun b => keyB b == k) = [] := by
          rw [List.filter_eq_nil_iff]
          intro b hb
          rw [hF a b hb]
          simpa using ha
        simp [ha, this, ih]

/-- `hashExprVal` over an empty row is insensitive to appending a column. -/
lemma hashExprVal_nil_row (c cq : String) (dt : DType) :
    ∀ cols : List (String × DType),
      hashExprVal (cols ++ [(c, dt)]) [] cq = hashExprVal cols [] cq := by
  intro cols
  induction cols with
  | nil =>
      simp only [List.nil_append, hashExprVal]
      split
      · cases dt <;> rfl
      · rfl
  | cons p ps ih =>
      obtain ⟨name, dt0⟩ := p
      simp only [List.cons_append, hashExprVal, List.tail_nil]
      split
      · rfl
      · exact ih

/-- Appending a fresh all-null string column does not change any hash
column's contribution: absence and present-but-null coincide. -/
lemma hashExprVal_append (c cq : String) (dt : DType) :
    ∀ (cols : List (String × DType)) (row : List Cell), row.length = cols.length →
      hashExprVal (cols ++ [(c, dt)]) (row ++ [Cell.null]) cq =
        hashExprVal cols row cq := by
  intro cols
  induction cols with
  | nil =>
      intro row hrow
      have : row = [] := List.length_eq_zero.mp hrow
      subst this
      simp only [List.nil_append, hashExprVal]
      split
      · cases dt <;> rfl
      · rfl
  | cons p ps ih =>
      intro row hrow
      obtain ⟨name, dt0⟩ := p
      cases row with
      | nil => simp at hrow
      | cons x xs =>
          simp only [List.cons_append, hashExprVal, List.head?_cons, List.tail_cons]
          split
          · rfl
          · exact ih xs (by simpa using hrow)

end EparEtl

namespace EparEtl

/-! ## Claim theorems -/

lemma filter_swap {α : Type} (p q : α → Bool) (l : List α) :
    (l.filter p).filter q = (l.filter q).filter p := by
  simp only [List.filter_filter]
  exact List.filter_congr fun a _ => by rw [Bool.and_comm]

lemma apply_scd2_nil {α : Type} (snap : List (SnapRow α)) (ts : Int) (f : α → String) :
    apply_scd2 snap [] ts f = (snapshot_hashed snap f).map (mkOpenRow ts) := rfl

lemma apply_scd2_cons {α : Type} (snap : List (SnapRow α)) (h0 : HistRow α)
    (hrest : List (HistRow α)) (ts : Int) (f : α → String) :
    apply_scd2 snap (h0 :: hrest) ts f =
      closed_history (h0 :: hrest)
        ++ ((current_history (h0 :: hrest)).filter fun c =>
            !(keys_to_close (leftJoinHash (snapshot_hashed snap f) (current_history (h0 :: hrest)))
                (current_history (h0 :: hrest)) (snapshot_hashed snap f)).contains c.key)
        ++ (((current_history (h0 :: hrest)).filter fun c =>
            (keys_to_close (leftJoinHash (snapshot_hashed snap f) (current_history (h0 :: hrest)))
                (current_history (h0 :: hrest)) (snapshot_hashed snap f)).contains c.key).map
              fun c => { c with valid_to := some ts, is_current := false })
        ++ new_entries (leftJoinHash (snapshot_hashed snap f) (current_history (h0 :: hrest))) ts := rfl

lemma snapshot_hashed_countP_le_one {α : Type} (snap : List (SnapRow α)) (f : α → String)
    (k : String) : (snapshot_hashed snap f).countP (fun p => p.1.key == k) ≤ 1 := by
  unfold snapshot_hashed
  rw [List.countP_map]
  exact uniqueBy_countP_le_one SnapRow.key k snap

lemma snapshot_hashed_find? {α : Type} (snap : List (SnapRow α)) (f : α → String)
    (k : String) :
    (snapshot_hashed snap f).find? (fun p => p.1.key == k) =
      (snap.find? fun s => s.key == k).map fun r => (r, f r.data) := by
  unfold snapshot_hashed dedupKey
  rw [List.find?_map]
  have hp : ((fun p : SnapRow α × String => p.1.key == k) ∘ fun r => (r, f r.data)) =
      fun s : SnapRow α => s.key == k := rfl
  rw [hp, uniqueBy_find? SnapRow.key k snap]

lemma snapshot_hashed_filter_key {α : Type} (snap : List (SnapRow α)) (f : α → String)
    (k : String) (r : SnapRow α) (hfind : snap.find? (fun s => s.key == k) = some r) :
    (snapshot_hashed snap f).filter (fun p => p.1.key == k) = [(r, f r.data)] := by
  rw [countP_le_one_filter _ _ (snapshot_hashed_countP_le_one snap f k),
    snapshot_hashed_find?, hfind]
  rfl

lemma leftJoinHash_filter_key {α : Type} (sh : List (SnapRow α × String))
    (cur : List (HistRow α)) (k : String) :
    (leftJoinHash sh cur).filter (fun t => t.1.key == k) =
      leftJoinHash (sh.filter fun p => p.1.key == k) cur := by
  unfold leftJoinHash
  refine filter_flatMap_key (fun p => p.1.key) (fun t => t.1.key)
    (fun p =>
      if (cur.filter fun c => c.key == p.1.key).isEmpty then [(p.1, p.2, (none : Option String))]
      else (cur.filter fun c => c.key == p.1.key).map fun c => (p.1, p.2, some c.row_hash))
    ?_ k sh
  intro p t ht
  simp only at ht
  split at ht
  · simp only [List.mem_singleton] at ht
    rw [ht]
  · obtain ⟨c, _, hc⟩ := List.mem_map.mp ht
    rw [← hc]

lemma leftJoinHash_single_nomatch {α : Type} (p : SnapRow α × String)
    (cur : List (HistRow α)) (hms : cur.filter (fun c => c.key == p.1.key) = []) :
    leftJoinHash [p] cur = [(p.1, p.2, none)] := by
  unfold leftJoinHash
  rw [List.flatMap_singleton, hms]
  rfl

lemma current_history_filter_key_nil {α : Type} (hist : List (HistRow α)) (k : String)
    (hclosed : ∀ rw ∈ hist, rw.key = k → rw.is_current = false) :
    (current_history hist).filter (fun c => c.key == k) = [] := by
  rw [List.filter_eq_nil_iff]
  intro c hc hk
  have hmem := List.mem_filter.mp hc
  have hfalse : c.is_current = false := hclosed c hmem.1 (by simpa using hk)
  have htrue : c.is_current = true := by simpa using hmem.2
  rw [hfalse] at htrue
  exact Bool.false_ne_true htrue

lemma contains_iff (l : List String) (s : String) : l.contains s = true ↔ s ∈ l := by
  simp

lemma length_filter_partition {α : Type} (p : α → Bool) (l : List α) :
    (l.filter p).length + (l.filter fun a => !p a).length = l.length := by
  induction l with
  | nil => rfl
  | cons x xs ih =>
      simp only [List.filter_cons]
      cases hx : p x <;> simp [hx] <;> omega

lemma uniqueByAux_key_not_seen {α : Type} (key : α → String) :
    ∀ (l : List α) (seen : List String) (y : α),
      y ∈ uniqueByAux key seen l → key y ∉ seen := by
  intro l
  induction l with
  | nil => intro seen y hy; simp [uniqueByAux] at hy
  | cons x xs ih =>
      intro seen y hy
      simp only [uniqueByAux] at hy
      split at hy
      · exact ih seen y hy
      · rename_i hnc
        rcases List.mem_cons.mp hy with h | h
        · subst h
          simpa using hnc
        · intro hk
          exact ih (key x :: seen) y h (List.mem_cons_of_mem _ hk)

lemma uniqueByAux_pairwise {α : Type} (key : α → String) :
    ∀ (l : List α) (seen : List String),
      (uniqueByAux key seen l).Pairwise fun a b => key a ≠ key b := by
  intro l
  induction l with
  | nil => intro seen; simp [uniqueByAux]
  | cons x xs ih =>
      intro seen
      simp only [uniqueByAux]
      split
      · exact ih seen
      · refine List.Pairwise.cons ?_ (ih (key x :: seen))
        intro y hy
        have := uniqueByAux_key_not_seen key xs (key x :: seen) y hy
        intro hk
        exact this (hk ▸ List.mem_cons_self _ _)

/-- Distinct rows of the hashed deduplicated snapshot have distinct keys. -/
lemma sh_key_inj {α : Type} (snap : List (SnapRow α)) (f : α → String) :
    ∀ p ∈ snapshot_hashed snap f, ∀ q ∈ snapshot_hashed snap f,
      p.1.key = q.1.key → p = q := by
  intro p hp q hq hk
  unfold snapshot_hashed dedupKey uniqueBy at hp hq
  obtain ⟨rp, hrp, hrpe⟩ := List.mem_map.mp hp
  obtain ⟨rq, hrq, hrqe⟩ := List.mem_map.mp hq
  have hpair := uniqueByAux_pairwise SnapRow.key snap []
  have hkey : rp.key = rq.key := by
    rw [← hrpe, ← hrqe] at hk
    exact hk
  have heq : rp = rq := by
    by_contra hne
    exact (List.Pairwise.forall (fun a b h => (Ne.symm h)) hpair hrp hrq hne) hkey
  rw [← hrpe, ← hrqe, heq]

/-- Shape of a joined row: it carries a snapshot row and either a null
`hist_row_hash` (no current match) or the hash of a matching current row. -/
lemma mem_leftJoinHash {α : Type} {sh : List (SnapRow α × String)}
    {cur : List (HistRow α)} {t : SnapRow α × String × Option String}
    (ht : t ∈ leftJoinHash sh cur) :
    ∃ p ∈ sh, t.1 = p.1 ∧ t.2.1 = p.2 ∧
      ((t.2.2 = none ∧ cur.filter (fun c => c.key == p.1.key) = []) ∨
       (∃ c ∈ cur, c.key = p.1.key ∧ t.2.2 = some c.row_hash)) := by
  unfold leftJoinHash at ht
  obtain ⟨p, hp, hmem⟩ := List.mem_flatMap.mp ht
  split at hmem
  · rename_i hempty
    simp only [List.mem_singleton] at hmem
    subst hmem
    exact ⟨p, hp, rfl, rfl, Or.inl ⟨rfl, List.isEmpty_iff.mp hempty⟩⟩
  · obtain ⟨c, hc, heq⟩ := List.mem_map.mp hmem
    subst heq
    have hcf := List.mem_filter.mp hc
    exact ⟨p, hp, rfl, rfl, Or.inr ⟨c, hcf.1, by simpa using hcf.2, rfl⟩⟩

/-- Membership introduction for the joined rows with a current match. -/
lemma leftJoinHash_mem_of_match {α : Type} {sh : List (SnapRow α × String)}
    {cur : List (HistRow α)} {p : SnapRow α × String} {c : HistRow α}
    (hp : p ∈ sh) (hc : c ∈ cur) (hk : c.key = p.1.key) :
    (p.1, p.2, some c.row_hash) ∈ leftJoinHash sh cur := by
  unfold leftJoinHash
  refine List.mem_flatMap.mpr ⟨p, hp, ?_⟩
  have hcm : c ∈ cur.filter fun c => c.key == p.1.key :=
    List.mem_filter.mpr ⟨hc, by simp [hk]⟩
  have hne : (cur.filter fun c => c.key == p.1.key).isEmpty = false := by
    rcases hfe : (cur.filter fun c => c.key == p.1.key) with _ | ⟨a, as⟩
    · rw [hfe] at hcm; simp at hcm
    · rw [hfe]; rfl
  rw [if_neg (by simp [hne])]
  exact List.mem_map_of_mem _ hcm

/-- Membership introduction for the joined rows without a current match. -/
lemma leftJoinHash_mem_of_nomatch {α : Type} {sh : List (SnapRow α × String)}
    {cur : List (HistRow α)} {p : SnapRow α × String}
    (hp : p ∈ sh) (hms : cur.filter (fun c => c.key == p.1.key) = []) :
    (p.1, p.2, (none : Option String)) ∈ leftJoinHash sh cur := by
  unfold leftJoinHash
  refine List.mem_flatMap.mpr ⟨p, hp, ?_⟩
  rw [hms]
  simp

/-- The current part of a bootstrap merge: every produced row is open. -/
lemma current_apply_nil {α : Type} (snap : List (SnapRow α)) (ts : Int) (f : α → String) :
    current_history (apply_scd2 snap [] ts f) =
      (snapshot_hashed snap f).map (mkOpenRow ts) := by
  unfold current_history
  rw [apply_scd2_nil]
  refine List.filter_eq_self.mpr fun a ha => ?_
  obtain ⟨p, _, hpe⟩ := List.mem_map.mp ha
  rw [← hpe]
  rfl

lemma closed_apply_nil {α : Type} (snap : List (SnapRow α)) (ts : Int) (f : α → String) :
    closed_history (apply_scd2 snap [] ts f) = [] := by
  unfold closed_history
  rw [apply_scd2_nil, List.filter_eq_nil_iff]
  intro a ha
  obtain ⟨p, _, hpe⟩ := List.mem_map.mp ha
  rw [← hpe]
  simp [mkOpenRow]

/-- The current part of a steady-state merge: kept current rows plus the
new entries. -/
lemma current_apply_cons {α : Type} (snap : List (SnapRow α)) (h0 : HistRow α)
    (hrest : List (HistRow α)) (ts : Int) (f : α → String) :
    current_history (apply_scd2 snap (h0 :: hrest) ts f) =
      ((current_history (h0 :: hrest)).filter fun c =>
        !(keys_to_close (leftJoinHash (snapshot_hashed snap f) (current_history (h0 :: hrest)))
            (current_history (h0 :: hrest)) (snapshot_hashed snap f)).contains c.key)
      ++ new_entries (leftJoinHash (snapshot_hashed snap f) (current_history (h0 :: hrest))) ts := by
  show (apply_scd2 snap (h0 :: hrest) ts f).filter (fun r => r.is_current) = _
  rw [apply_scd2_cons]
  simp only [List.filter_append]
  have h1 : (closed_history (h0 :: hrest)).filter (fun r => r.is_current) = [] := by
    unfold closed_history
    rw [List.filter_filter, List.filter_eq_nil_iff]
    intro a _
    cases ha : a.is_current <;> simp [ha]
  have h2 : ∀ q : HistRow α → Bool,
      ((current_history (h0 :: hrest)).filter q).filter (fun r => r.is_current) =
        (current_history (h0 :: hrest)).filter q := by
    intro q
    refine List.filter_eq_self.mpr fun a ha => ?_
    exact (List.mem_filter.mp ((List.mem_filter.mp ha).1)).2
  have h3 : ∀ q : HistRow α → Bool,
      ((((current_history (h0 :: hrest)).filter q).map
        fun c => { c with valid_to := some ts, is_current := false }).filter
          fun r => r.is_current) = [] := by
    intro q
    rw [List.filter_eq_nil_iff]
    intro a ha h
    obtain ⟨c, _, hce⟩ := List.mem_map.mp ha
    rw [← hce] at h
    simp at h
  have h4 : (new_entries (leftJoinHash (snapshot_hashed snap f)
      (current_history (h0 :: hrest))) ts).filter (fun r => r.is_current) =
      new_entries (leftJoinHash (snapshot_hashed snap f) (current_history (h0 :: hrest))) ts := by
    refine List.filter_eq_self.mpr fun a ha => ?_
    unfold new_entries at ha
    obtain ⟨t, _, hte⟩ := List.mem_map.mp ha
    rw [← hte]
  rw [h1, h2, h3, h4]
  simp

/-- The closed part of a steady-state merge: prior closed rows plus the
newly closed updates. -/
lemma closed_apply_cons {α : Type} (snap : List (SnapRow α)) (h0 : HistRow α)
    (hrest : List (HistRow α)) (ts : Int) (f : α → String) :
    closed_history (apply_scd2 snap (h0 :: hrest) ts f) =
      closed_history (h0 :: hrest)
        ++ (((current_history (h0 :: hrest)).filter fun c =>
            (keys_to_close (leftJoinHash (snapshot_hashed snap f) (current_history (h0 :: hrest)))
                (current_history (h0 :: hrest)) (snapshot_hashed snap f)).contains c.key).map
              fun c => { c with valid_to := some ts, is_current := false }) := by
  show (apply_scd2 snap (h0 :: hrest) ts f).filter (fun r => !r.is_current) = _
  rw [apply_scd2_cons]
  simp only [List.filter_append]
  have h1 : (closed_history (h0 :: hrest)).filter (fun r => !r.is_current) =
      closed_history (h0 :: hrest) := by
    refine List.filter_eq_self.mpr fun a ha => ?_
    have := (List.mem_filter.mp ha).2
    simpa using this
  have h2 : ∀ q : HistRow α → Bool,
      ((current_history (h0 :: hrest)).filter q).filter (fun r => !r.is_current) = [] := by
    intro q
    rw [List.filter_eq_nil_iff]
    intro a ha h
    have := (List.mem_filter.mp ((List.mem_filter.mp ha).1)).2
    rw [this] at h
    simp at h
  have h3 : ∀ q : HistRow α → Bool,
      ((((current_history (h0 :: hrest)).filter q).map
        fun c => { c with valid_to := some ts, is_current := false }).filter
          fun r => !r.is_current) =
        (((current_history (h0 :: hrest)).filter q).map
          fun c => { c with valid_to := some ts, is_current := false }) := by
    intro q
    refine List.filter_eq_self.mpr fun a ha => ?_
    obtain ⟨c, _, hce⟩ := List.mem_map.mp ha
    rw [← hce]
    rfl
  have h4 : (new_entries (leftJoinHash (snapshot_hashed snap f)
      (current_history (h0 :: hrest))) ts).filter (fun r => !r.is_current) = [] := by
    rw [List.filter_eq_nil_iff]
    intro a ha h
    unfold new_entries at ha
    obtain ⟨t, _, hte⟩ := List.mem_map.mp ha
    rw [← hte] at h
    simp at h
  rw [h1, h2, h3, h4]
  simp

/-- A merge in which every snapshot row already has an identically-hashed
current row and every current row is still present in the snapshot is a
no-op: nothing is inserted, nothing is closed. -/
lemma merge_noop {α : Type} (snap : List (SnapRow α)) (h0 : HistRow α)
    (hrest : List (HistRow α)) (ts : Int) (f : α → String)
    (hA : ∀ c ∈ current_history (h0 :: hrest),
      ∃ p ∈ snapshot_hashed snap f, p.1.key = c.key)
    (hB : ∀ p ∈ snapshot_hashed snap f, ∀ c ∈ current_history (h0 :: hrest),
      c.key = p.1.key → c.row_hash = p.2)
    (hC : ∀ p ∈ snapshot_hashed snap f,
      ∃ c ∈ current_history (h0 :: hrest), c.key = p.1.key) :
    apply_scd2 snap (h0 :: hrest) ts f =
      closed_history (h0 :: hrest) ++ current_history (h0 :: hrest) := by
  have hnew : new_records (leftJoinHash (snapshot_hashed snap f)
      (current_history (h0 :: hrest))) = [] := by
    unfold new_records
    rw [List.filter_eq_nil_iff]
    intro tt htt hisNone
    obtain ⟨p, hp, _, _, hcase⟩ := mem_leftJoinHash htt
    rcases hcase with ⟨_, hms⟩ | ⟨c, _, _, hsome⟩
    · obtain ⟨c, hcmem, hck⟩ := hC p hp
      have hcm : c ∈ (current_history (h0 :: hrest)).filter (fun c => c.key == p.1.key) :=
        List.mem_filter.mpr ⟨hcmem, by simp [hck]⟩
      rw [hms] at hcm
      simp at hcm
    · rw [hsome] at hisNone
      simp at hisNone
  have hchanged : changed_records (leftJoinHash (snapshot_hashed snap f)
      (current_history (h0 :: hrest))) = [] := by
    unfold changed_records
    rw [List.filter_eq_nil_iff]
    intro tt htt hpred
    obtain ⟨p, hp, _, h2, hcase⟩ := mem_leftJoinHash htt
    rcases hcase with ⟨hnone, _⟩ | ⟨c, hc, hck, hsome⟩
    · rw [hnone] at hpred
      simp at hpred
    · have hhash : c.row_hash = p.2 := hB p hp c hc hck
      rw [hsome, hhash, h2] at hpred
      simp at hpred
  have hdel : deleted_keys (current_history (h0 :: hrest)) (snapshot_hashed snap f) = [] := by
    unfold deleted_keys
    have hfe : (current_history (h0 :: hrest)).filter
        (fun c => !((snapshot_hashed snap f).any fun p => p.1.key == c.key)) = [] := by
      rw [List.filter_eq_nil_iff]
      intro c hc hpred
      obtain ⟨p, hp, hk⟩ := hA c hc
      have hany : ((snapshot_hashed snap f).any fun p => p.1.key == c.key) = true :=
        List.any_eq_true.mpr ⟨p, hp, by simp [hk]⟩
      rw [hany] at hpred
      simp at hpred
    rw [hfe]
    rfl
  have hktc : keys_to_close (leftJoinHash (snapshot_hashed snap f)
      (current_history (h0 :: hrest))) (current_history (h0 :: hrest))
      (snapshot_hashed snap f) = [] := by
    unfold keys_to_close
    rw [hchanged, hdel]
    rfl
  rw [apply_scd2_cons, hktc]
  have h1 : ((current_history (h0 :: hrest)).filter
      fun c => !(List.contains [] c.key)) = current_history (h0 :: hrest) :=
    List.filter_eq_self.mpr fun c _ => rfl
  have h2 : ((current_history (h0 :: hrest)).filter
      fun c => List.contains [] c.key) = [] := by
    rw [List.filter_eq_nil_iff]
    intro c _ h
    simp [List.contains] at h
  have h3 : new_entries (leftJoinHash (snapshot_hashed snap f)
      (current_history (h0 :: hrest))) ts = [] := by
    unfold new_entries
    rw [hnew, hchanged]
    rfl
  rw [h1, h2, h3]
  simp

/-- Splitting a history into closed then current parts preserves both
parts and the length. -/
lemma cur_closed_append {α : Type} (l : List (HistRow α)) :
    current_history (closed_history l ++ current_history l) = current_history l ∧
    closed_history (closed_history l ++ current_history l) = closed_history l ∧
    (closed_history l ++ current_history l).length = l.length := by
  refine ⟨?_, ?_, ?_⟩
  · unfold current_history closed_history
    rw [List.filter_append, List.filter_filter, List.filter_filter]
    have e1 : (l.filter fun a => a.is_current && !a.is_current) = [] := by
      rw [List.filter_eq_nil_iff]
      intro a _
      cases ha : a.is_current <;> simp [ha]
    have e2 : (l.filter fun a => a.is_current && a.is_current) = l.filter fun a => a.is_current :=
      List.filter_congr fun a _ => by cases ha : a.is_current <;> simp [ha]
    rw [e1, e2]
    rfl
  · unfold current_history closed_history
    rw [List.filter_append, List.filter_filter, List.filter_filter]
    have e1 : (l.filter fun a => !a.is_current && !a.is_current) =
        l.filter fun a => !a.is_current :=
      List.filter_congr fun a _ => by cases ha : a.is_current <;> simp [ha]
    have e2 : (l.filter fun a => !a.is_current && a.is_current) = [] := by
      rw [List.filter_eq_nil_iff]
      intro a _
      cases ha : a.is_current <;> simp [ha]
    rw [e1, e2]
    simp
  · unfold current_history closed_history
    rw [List.length_append]
    have := length_filter_partition (fun r : HistRow α => r.is_current) l
    omega

/-- Every current row of a merge result corresponds to a hashed snapshot
row with the same key and the same `row_hash`. -/
lemma current_apply_key_hash {α : Type} (snap : List (SnapRow α)) (h0 : List (HistRow α))
    (ts : Int) (f : α → String) :
    ∀ c ∈ current_history (apply_scd2 snap h0 ts f),
      ∃ p ∈ snapshot_hashed snap f, p.1.key = c.key ∧ c.row_hash = p.2 := by
  intro c hc
  cases h0 with
  | nil =>
      rw [current_apply_nil] at hc
      obtain ⟨p, hp, hpe⟩ := List.mem_map.mp hc
      exact ⟨p, hp, by rw [← hpe]; rfl, by rw [← hpe]; rfl⟩
  | cons a t =>
      rw [current_apply_cons] at hc
      rcases List.mem_append.mp hc with hkeep | hnew
      · have hc0 := List.mem_filter.mp hkeep
        have hnc : ¬ (keys_to_close (leftJoinHash (snapshot_hashed snap f)
            (current_history (a :: t))) (current_history (a :: t))
            (snapshot_hashed snap f)).contains c.key = true := by
          intro hcontr
          have := hc0.2
          rw [hcontr] at this
          simp at this
        by_cases hex : ∃ p ∈ snapshot_hashed snap f, p.1.key = c.key
        · obtain ⟨p, hp, hpk⟩ := hex
          refine ⟨p, hp, hpk, ?_⟩
          by_contra hne
          apply hnc
          rw [contains_iff]
          unfold keys_to_close
          rw [List.mem_dedup]
          apply List.mem_append_left
          have htt : (p.1, p.2, some c.row_hash) ∈ leftJoinHash (snapshot_hashed snap f)
              (current_history (a :: t)) :=
            leftJoinHash_mem_of_match hp hc0.1 hpk.symm
          have hch : (p.1, p.2, some c.row_hash) ∈ changed_records
              (leftJoinHash (snapshot_hashed snap f) (current_history (a :: t))) := by
            unfold changed_records
            refine List.mem_filter.mpr ⟨htt, ?_⟩
            simp only [Option.isSome_some, Bool.true_and, Bool.not_eq_true']
            simp only [beq_eq_false_iff_ne, ne_eq, Option.some.injEq]
            intro h
            exact hne (by rw [h])
          have := List.mem_map_of_mem (fun t => t.1.key) hch
          simpa [hpk] using this
        · exfalso
          apply hnc
          rw [contains_iff]
          unfold keys_to_close
          rw [List.mem_dedup]
          apply List.mem_append_right
          unfold deleted_keys
          have hcf : c ∈ (current_history (a :: t)).filter
              fun c => !((snapshot_hashed snap f).any fun p => p.1.key == c.key) := by
            refine List.mem_filter.mpr ⟨hc0.1, ?_⟩
            have hany : ((snapshot_hashed snap f).any fun p => p.1.key == c.key) = false := by
              rw [← Bool.not_eq_true, List.any_eq_true]
              rintro ⟨p, hp, hpk⟩
              exact hex ⟨p, hp, by simpa using hpk⟩
            rw [hany]
            rfl
          exact List.mem_map_of_mem (fun c => c.key) hcf
      · unfold new_entries at hnew
        obtain ⟨tt, htt, htte⟩ := List.mem_map.mp hnew
        have httj : tt ∈ leftJoinHash (snapshot_hashed snap f) (current_history (a :: t)) := by
          rcases List.mem_append.mp htt with h | h
          · exact (List.mem_filter.mp h).1
          · exact (List.mem_filter.mp h).1
        obtain ⟨p, hp, h1, h2, _⟩ := mem_leftJoinHash httj
        refine ⟨p, hp, ?_, ?_⟩
        · rw [← htte, ← h1]
        · rw [← htte, ← h2]

/-- Every hashed snapshot row has, after a merge, a current row with its
key. -/
lemma snapshot_key_in_current_after {α : Type} (snap : List (SnapRow α))
    (h0 : List (HistRow α)) (ts : Int) (f : α → String) :
    ∀ p ∈ snapshot_hashed snap f,
      ∃ c ∈ current_history (apply_scd2 snap h0 ts f), c.key = p.1.key := by
  intro p hp
  cases h0 with
  | nil =>
      rw [current_apply_nil]
      exact ⟨mkOpenRow ts p, List.mem_map_of_mem _ hp, rfl⟩
  | cons a t =>
      rw [current_apply_cons]
      by_cases hktc : p.1.key ∈ keys_to_close (leftJoinHash (snapshot_hashed snap f)
          (current_history (a :: t))) (current_history (a :: t)) (snapshot_hashed snap f)
      · unfold keys_to_close at hktc
        rw [List.mem_dedup] at hktc
        rcases List.mem_append.mp hktc with hch | hdel
        · obtain ⟨tt, httc, httk⟩ := List.mem_map.mp hch
          refine ⟨⟨tt.1.key, tt.1.data, tt.2.1, ts, none, true⟩, ?_, by simpa using httk⟩
          apply List.mem_append_right
          unfold new_entries
          exact List.mem_map_of_mem _ (List.mem_append_right _ httc)
        · exfalso
          unfold deleted_keys at hdel
          obtain ⟨c, hcf, hck⟩ := List.mem_map.mp hdel
          have hpred := (List.mem_filter.mp hcf).2
          have hany : ((snapshot_hashed snap f).any fun q => q.1.key == c.key) = true :=
            List.any_eq_true.mpr ⟨p, hp, by simp [hck]⟩
          rw [hany] at hpred
          simp at hpred
      · by_cases hcur : ∃ c ∈ current_history (a :: t), c.key = p.1.key
        · obtain ⟨c, hc, hck⟩ := hcur
          refine ⟨c, ?_, hck⟩
          apply List.mem_append_left
          refine List.mem_filter.mpr ⟨hc, ?_⟩
          have : (keys_to_close (leftJoinHash (snapshot_hashed snap f)
              (current_history (a :: t))) (current_history (a :: t))
              (snapshot_hashed snap f)).contains c.key = false := by
            rw [← Bool.not_eq_true, contains_iff]
            rw [hck]
            exact hktc
          rw [this]
          rfl
        · have hms : (current_history (a :: t)).filter (fun c => c.key == p.1.key) = [] := by
            rw [List.filter_eq_nil_iff]
            intro c hc hck
            exact hcur ⟨c, hc, by simpa using hck⟩
          have htt := leftJoinHash_mem_of_nomatch hp hms
          refine ⟨⟨p.1.key, p.1.data, p.2, ts, none, true⟩, ?_, rfl⟩
          apply List.mem_append_right
          unfold new_entries
          have hmem : (p.1, p.2, (none : Option String)) ∈
              new_records (leftJoinHash (snapshot_hashed snap f) (current_history (a :: t))) := by
            unfold new_records
            exact List.mem_filter.mpr ⟨htt, rfl⟩
          have := List.mem_map_of_mem
            (fun t : SnapRow α × String × Option String =>
              (⟨t.1.key, t.1.data, t.2.1, ts, none, true⟩ : HistRow α))
            (List.mem_append_left (changed_records (leftJoinHash (snapshot_hashed snap f)
              (current_history (a :: t)))) hmem)
          exact this

/-- C3: the status normalizer at the spec's three probe inputs, as the
code actually computes them: "Withdrawn (prior Conditional approval)"
normalizes to WITHDRAWN and "Not Authorised" to UNKNOWN as claimed, but
"Suspension Lifted" normalizes to UNKNOWN — the code has no
suspension-lifted rule, contradicting the claim (and the repository's
own tests, which require APPROVED). -/
theorem status_priority_eval_c3 :
    normalizeStatus "Withdrawn (prior Conditional approval)" = "WITHDRAWN" ∧
    normalizeStatus "Suspension Lifted" = "UNKNOWN" ∧
    normalizeStatus "Not Authorised" = "UNKNOWN" :=
  ⟨by decide, by decide, by decide⟩

/-- C1: the cleaner does not sort the substance list, so the reordered
field "Sub B + Sub A" cleans to a different list than "Sub A + Sub B",
the row hasher (both the concrete `generate_row_hash` on the list column
and the digest used inside the SCD2 merge) produces different hashes,
and merging the reordered snapshot after the original yields a second
history version — contradicting the claim (and the repository's own
order-invariance test). -/
theorem hash_order_variance_c1 :
    cleanSubstance "Sub A + Sub B" = ["Sub A", "Sub B"] ∧
    cleanSubstance "Sub B + Sub A" = ["Sub B", "Sub A"] ∧
    (generate_row_hash ⟨[("active_substance_list", DType.strList)],
        [[Cell.strList (cleanSubstance "Sub A + Sub B")]]⟩ ["active_substance_list"]).rows ≠
      (generate_row_hash ⟨[("active_substance_list", DType.strList)],
        [[Cell.strList (cleanSubstance "Sub B + Sub A")]]⟩ ["active_substance_list"]).rows ∧
    (apply_scd2 [⟨"P1", cleanSubstance "Sub B + Sub A"⟩]
        (apply_scd2 [⟨"P1", cleanSubstance "Sub A + Sub B"⟩] [] 1
          fun xs => MD5.md5Hex (String.intercalate ";" xs)) 2
        fun xs => MD5.md5Hex (String.intercalate ";" xs)).length = 2 :=
  ⟨by decide, by decide, by decide, by decide⟩

/-- C2 counterexample: `generate_row_hash` on a row set entirely lacking
the requested hash column does not fail — it substitutes the empty
string (the row hash is the digest of the empty pre-hash string), and
the result is byte-identical to hashing a present-but-all-null column:
absence is NOT treated differently from present-but-null. -/
theorem row_hash_missing_column_cex_c2 :
    (generate_row_hash ⟨[("id", DType.str)], [[Cell.str "1"]]⟩ ["data"]).rows =
      [[Cell.str "1", Cell.str (MD5.md5Hex "")]] ∧
    (generate_row_hash ⟨[("id", DType.str)], [[Cell.str "1"]]⟩ ["data"]).rows.map
        (fun r => r.getLast?) =
      (generate_row_hash ⟨[("id", DType.str), ("data", DType.str)],
          [[Cell.str "1", Cell.null]]⟩ ["data"]).rows.map fun r => r.getLast? :=
  ⟨by decide, by decide⟩

/-- C2 amended: for every rectangular row set and hash-column list,
`generate_row_hash` never fails on a hash column absent from the row
set; it substitutes the empty string for it, so the produced row hashes
are identical to those of the same row set extended with that column
present but entirely null. -/
theorem row_hash_missing_column_c2 (cols : List (String × DType))
    (rows : List (List Cell)) (columns : List String) (c : String) (dt : DType)
    (habsent : colDType cols c = none)
    (hrect : ∀ r ∈ rows, r.length = cols.length) :
    (generate_row_hash ⟨cols ++ [(c, dt)], rows.map fun r => r ++ [Cell.null]⟩
        columns).rows.map (fun r => r.getLast?) =
      (generate_row_hash ⟨cols, rows⟩ columns).rows.map fun r => r.getLast? := by
  simp only [generate_row_hash, List.map_map]
  apply List.map_congr_left
  intro r hr
  simp only [Function.comp_apply, List.getLast?_concat]
  have : rowPrehash (cols ++ [(c, dt)]) columns (r ++ [Cell.null]) =
      rowPrehash cols columns r := by
    unfold rowPrehash
    congr 1
    apply List.map_congr_left
    intro cq _
    exact hashExprVal_append c cq dt cols r (hrect r hr)
  rw [this]

/-- C2 amended, witness. -/
theorem row_hash_missing_column_c2_witness :
    (generate_row_hash ⟨[("id", DType.str), ("data", DType.str)],
        [[Cell.str "1", Cell.null]]⟩ ["data"]).rows.map (fun r => r.getLast?) =
      (generate_row_hash ⟨[("id", DType.str)], [[Cell.str "1"]]⟩ ["data"]).rows.map
        fun r => r.getLast? :=
  row_hash_missing_column_c2 [("id", DType.str)] [[Cell.str "1"]] ["data"] "data"
    DType.str (by decide) (by decide)

/-- C8: merging any snapshot into an empty history bootstraps one
current row per deduplicated snapshot row (first occurrence per business
key kept, no failure possible), and on the concrete duplicate-key
snapshot `[{id 1, "Winner"}, {id 1, "Loser"}]` the result is exactly one
current row carrying "Winner". -/
theorem scd2_dedup_first_c8 {α : Type} (snap : List (SnapRow α)) (ts : Int)
    (f : α → String) (g : String → String) :
    apply_scd2 snap [] ts f =
      (dedupKey snap).map (fun r => ⟨r.key, r.data, f r.data, ts, none, true⟩) ∧
    apply_scd2 [⟨"1", "Winner"⟩, ⟨"1", "Loser"⟩] ([] : List (HistRow String)) ts g =
      [⟨"1", "Winner", g "Winner", ts, none, true⟩] := by
  constructor
  · simp [apply_scd2, snapshot_hashed, mkOpenRow, List.map_map]
  · rfl

/-- Two disjoint filters of a list jointly contain at most the `p`-count
of the list. -/
lemma countP_two_filters_le {A : Type} (p q1 q2 : A → Bool) (l : List A)
    (hd : ∀ a, ¬(q1 a = true ∧ q2 a = true)) :
    (l.filter q1).countP p + (l.filter q2).countP p ≤ l.countP p := by
  induction l with
  | nil => simp
  | cons x xs ih =>
      by_cases h1 : q1 x = true <;> by_cases h2 : q2 x = true
      · exact absurd ⟨h1, h2⟩ (hd x)
      · cases hp : p x <;> simp [List.filter_cons, List.countP_cons, h1, h2, hp] <;> omega
      · cases hp : p x <;> simp [List.filter_cons, List.countP_cons, h1, h2, hp] <;> omega
      · cases hp : p x <;> simp [List.filter_cons, List.countP_cons, h1, h2, hp] <;> omega

/-- Under the at-most-one-current invariant, at most one joined row per
business key exists. -/
lemma countP_joined_le_one {α : Type} (snap : List (SnapRow α)) (f : α → String)
    (cur : List (HistRow α)) (k : String)
    (hcur : ∀ k0, cur.countP (fun c => c.key == k0) ≤ 1) :
    (leftJoinHash (snapshot_hashed snap f) cur).countP (fun t => t.1.key == k) ≤ 1 := by
  rw [List.countP_eq_length_filter, leftJoinHash_filter_key]
  have hf : (snapshot_hashed snap f).filter (fun p => p.1.key == k) =
      ((snapshot_hashed snap f).find? fun p => p.1.key == k).toList :=
    countP_le_one_filter _ _ (snapshot_hashed_countP_le_one snap f k)
  rw [hf]
  rcases hfind : (snapshot_hashed snap f).find? fun p => p.1.key == k with _ | p
  · rw [hfind]
    simp [leftJoinHash]
  · rw [hfind]
    show (leftJoinHash [p] cur).length ≤ 1
    unfold leftJoinHash
    rw [List.flatMap_singleton]
    split
    · simp
    · rw [List.length_map, ← List.countP_eq_length_filter]
      exact hcur p.1.key

/-- C4: the SCD2 merge preserves the at-most-one-current invariant. -/
theorem scd2_at_most_one_current_c4 {α : Type} (snap : List (SnapRow α))
    (hist : List (HistRow α)) (ts : Int) (f : α → String)
    (hinv : atMostOneCurrent hist) :
    atMostOneCurrent (apply_scd2 snap hist ts f) := by
  intro k
  unfold curCount
  cases hist with
  | nil =>
      rw [apply_scd2_nil, List.countP_map]
      exact le_trans (le_of_eq (List.countP_congr fun p _ => by rfl))
        (snapshot_hashed_countP_le_one snap f k)
  | cons a t =>
      have hcurcnt : ∀ k0, (current_history (a :: t)).countP (fun c => c.key == k0) ≤ 1 := by
        intro k0
        unfold current_history
        rw [List.countP_filter]
        exact le_trans (le_of_eq (List.countP_congr fun c _ => by
          cases hc : c.is_current <;> simp [hc])) (hinv k0)
      rw [apply_scd2_cons]
      simp only [List.countP_append]
      have hclosed0 : (closed_history (a :: t)).countP
          (fun rw => rw.is_current && rw.key == k) = 0 := by
        rw [List.countP_eq_zero]
        intro c hc
        have := (List.mem_filter.mp hc).2
        simp only [Bool.not_eq_true'] at this
        simp [this]
      have hupd0 : ∀ q : HistRow α → Bool,
          ((((current_history (a :: t)).filter q).map
            fun c => { c with valid_to := some ts, is_current := false }).countP
              fun rw => rw.is_current && rw.key == k) = 0 := by
        intro q
        rw [List.countP_eq_zero]
        intro c hc
        obtain ⟨c0, _, hce⟩ := List.mem_map.mp hc
        rw [← hce]
        simp
      have hkeep_le : (((current_history (a :: t)).filter fun c =>
          !(keys_to_close (leftJoinHash (snapshot_hashed snap f) (current_history (a :: t)))
              (current_history (a :: t)) (snapshot_hashed snap f)).contains c.key).countP
            fun rw => rw.is_current && rw.key == k) ≤
          ((current_history (a :: t)).countP fun c => c.key == k) :=
        le_trans (List.Sublist.countP_le _ (List.filter_sublist _))
          (le_of_eq (List.countP_congr fun c hc => by
            have := (List.mem_filter.mp hc).2
            simp only [this]
            simp))
      have hnew_le : ((new_entries (leftJoinHash (snapshot_hashed snap f)
          (current_history (a :: t))) ts).countP fun rw => rw.is_current && rw.key == k) ≤ 1 := by
        unfold new_entries
        rw [List.countP_map]
        have heq : (((fun rw : HistRow α => rw.is_current && rw.key == k) ∘
            fun t : SnapRow α × String × Option String =>
              (⟨t.1.key, t.1.data, t.2.1, ts, none, true⟩ : HistRow α))) =
            fun t : SnapRow α × String × Option String => t.1.key == k := by
          funext t
          simp [Function.comp]
        rw [heq, List.countP_append]
        unfold new_records changed_records
        refine le_trans (countP_two_filters_le _ _ _ _ ?_)
          (countP_joined_le_one snap f (current_history (a :: t)) k hcurcnt)
        rintro tt ⟨hn, hs⟩
        rcases htt : tt.2.2 with _ | v
        · rw [htt] at hs
          simp at hs
        · rw [htt] at hn
          simp at hn
      -- cross exclusion: the kept part and the new part cannot both hold key k
      have hupd0i := hupd0 fun c =>
        (keys_to_close (leftJoinHash (snapshot_hashed snap f) (current_history (a :: t)))
          (current_history (a :: t)) (snapshot_hashed snap f)).contains c.key
      have hcurk := hcurcnt k
      by_cases hkeep_pos : 0 < (((current_history (a :: t)).filter fun c =>
          !(keys_to_close (leftJoinHash (snapshot_hashed snap f) (current_history (a :: t)))
              (current_history (a :: t)) (snapshot_hashed snap f)).contains c.key).countP
            fun rw => rw.is_current && rw.key == k)
      · have hnew0 : ((new_entries (leftJoinHash (snapshot_hashed snap f)
            (current_history (a :: t))) ts).countP
              fun rw => rw.is_current && rw.key == k) = 0 := by
          obtain ⟨c, hcmem, hcp⟩ := List.countP_pos_iff.mp hkeep_pos
          have hc0 := List.mem_filter.mp hcmem
          have hck : c.key = k := by
            have := hcp
            simp only [Bool.and_eq_true, beq_iff_eq] at this
            exact this.2
          have hnc : ¬ (keys_to_close (leftJoinHash (snapshot_hashed snap f)
              (current_history (a :: t))) (current_history (a :: t))
              (snapshot_hashed snap f)).contains c.key = true := by
            intro hcontr
            have := hc0.2
            rw [hcontr] at this
            simp at this
          rw [List.countP_eq_zero]
          intro e he hep
          unfold new_entries at he
          obtain ⟨tt, htt, htte⟩ := List.mem_map.mp he
          have httk : tt.1.key = k := by
            rw [← htte] at hep
            simp only [Bool.and_eq_true, beq_iff_eq] at hep
            exact hep.2
          rcases List.mem_append.mp htt with hnewm | hchm
          · have httj := (List.mem_filter.mp hnewm).1
            have hnone : tt.2.2 = none := by
              have := (List.mem_filter.mp hnewm).2
              simpa using this
            obtain ⟨p, _, h1, _, hcase⟩ := mem_leftJoinHash httj
            rcases hcase with ⟨_, hms⟩ | ⟨c2, _, _, hsome⟩
            · have hcmem2 : c ∈ (current_history (a :: t)).filter
                  (fun c2 => c2.key == p.1.key) := by
                refine List.mem_filter.mpr ⟨hc0.1, ?_⟩
                have : p.1.key = k := by rw [← h1, httk]
                simp [this, hck]
              rw [hms] at hcmem2
              simp at hcmem2
            · rw [hsome] at hnone
              simp at hnone
          · apply hnc
            rw [contains_iff]
            unfold keys_to_close
            rw [List.mem_dedup]
            apply List.mem_append_left
            refine List.mem_map.mpr ⟨tt, hchm, ?_⟩
            show tt.1.key = c.key
            rw [httk, hck]
        omega
      · omega

/-- C4, witness. -/
theorem scd2_at_most_one_current_c4_witness :
    atMostOneCurrent (apply_scd2 [(⟨"1", "A"⟩ : SnapRow String), ⟨"2", "B"⟩]
      [(⟨"1", "Old", "hOld", 0, none, true⟩ : HistRow String)] 5 fun s => s) :=
  scd2_at_most_one_current_c4 [⟨"1", "A"⟩, ⟨"2", "B"⟩]
    [⟨"1", "Old", "hOld", 0, none, true⟩] 5 (fun s => s)
    (fun k => by
      unfold curCount
      rw [List.countP_cons]
      cases h : (true && "1" == k : Bool) <;> simp [List.countP_nil, h])

/-- C5: re-merging the same snapshot is a no-op, whatever the second
ingestion timestamp (it covers both the same-timestamp case — where with
unchanged data no zero-duration correction arises — and the
strictly-later-timestamp case): the current rows, the closed rows and
the total height of the history are all unchanged. -/
theorem scd2_idempotent_c5 {α : Type} (snap : List (SnapRow α)) (h0 : List (HistRow α))
    (ts ts2 : Int) (f : α → String) :
    current_history (apply_scd2 snap (apply_scd2 snap h0 ts f) ts2 f) =
      current_history (apply_scd2 snap h0 ts f) ∧
    closed_history (apply_scd2 snap (apply_scd2 snap h0 ts f) ts2 f) =
      closed_history (apply_scd2 snap h0 ts f) ∧
    (apply_scd2 snap (apply_scd2 snap h0 ts f) ts2 f).length =
      (apply_scd2 snap h0 ts f).length := by
  rcases hH1 : apply_scd2 snap h0 ts f with _ | ⟨k0, krest⟩
  · have hsh : snapshot_hashed snap f = [] := by
      cases h0 with
      | nil =>
          rw [apply_scd2_nil] at hH1
          rcases hse : snapshot_hashed snap f with _ | ⟨q, qs⟩
          · rfl
          · rw [hse] at hH1
            simp at hH1
      | cons a t =>
          exfalso
          rw [apply_scd2_cons] at hH1
          have hlen := congrArg List.length hH1
          simp only [List.length_append, List.length_nil, List.length_map] at hlen
          have hpart := length_filter_partition
            (fun c : HistRow α =>
              (keys_to_close (leftJoinHash (snapshot_hashed snap f) (current_history (a :: t)))
                (current_history (a :: t)) (snapshot_hashed snap f)).contains c.key)
            (current_history (a :: t))
          have hpart2 := length_filter_partition
            (fun r : HistRow α => r.is_current) (a :: t)
          unfold closed_history at hlen
          unfold current_history at hpart hpart2 hlen
          simp only [List.length_cons] at hpart2
          omega
    rw [apply_scd2_nil, hsh]
    exact ⟨rfl, rfl, rfl⟩
  · have hkeyhash := current_apply_key_hash snap h0 ts f
    have hsnapkey := snapshot_key_in_current_after snap h0 ts f
    rw [hH1] at hkeyhash hsnapkey
    have hA : ∀ c ∈ current_history (k0 :: krest),
        ∃ p ∈ snapshot_hashed snap f, p.1.key = c.key := by
      intro c hc
      obtain ⟨p, hp, hk, _⟩ := hkeyhash c hc
      exact ⟨p, hp, hk⟩
    have hB : ∀ p ∈ snapshot_hashed snap f, ∀ c ∈ current_history (k0 :: krest),
        c.key = p.1.key → c.row_hash = p.2 := by
      intro p hp c hc hk
      obtain ⟨q, hq, hqk, hqh⟩ := hkeyhash c hc
      have hqp : q = p := sh_key_inj snap f q hq p hp (by rw [hqk, hk])
      rw [hqh, hqp]
    have hnoop := merge_noop snap k0 krest ts2 f hA hB hsnapkey
    rw [hnoop]
    exact cur_closed_append (k0 :: krest)

lemma scanWindow_some_unused (c : Char) (s2 : List Char) :
    ∀ (fuel j : Nat) (used : List Bool) (j' : Nat),
      scanWindow c s2 used j fuel = some j' → used.getD j' true = false := by
  intro fuel
  induction fuel with
  | zero => intro j used j' h; simp [scanWindow] at h
  | succ n ih =>
      intro j used j' h
      unfold scanWindow at h
      split at h
      · exact ih (j + 1) used j' h
      · split at h
        · rename_i hused _
          cases h
          simpa using hused
        · exact ih (j + 1) used j' h

lemma getD_false_lt (l : List Bool) (j : Nat) (h : l.getD j true = false) : j < l.length := by
  by_contra hge
  have hle : l.length ≤ j := by omega
  rw [List.getD_eq_default l true hle] at h
  exact Bool.noConfusion h

lemma countP_id_set (l : List Bool) : ∀ j, l.getD j true = false →
    (l.set j true).countP (fun b => b) = l.countP (fun b => b) + 1 := by
  induction l with
  | nil => intro j h; simp at h
  | cons b bs ih =>
      intro j h
      cases j with
      | zero =>
          rw [List.getD_cons_zero] at h
          subst h
          simp [List.countP_cons]
      | succ n =>
          rw [List.getD_cons_succ] at h
          have := ih n h
          cases hb : b <;> simp [List.countP_cons, this, hb] <;> omega

/-- The used flags of `s2` grow by exactly the match count. -/
lemma matchLoop_used (s2 : List Char) (mdist : Int) :
    ∀ (l : List Char) (i : Nat) (used : List Bool),
      (matchLoop s2 mdist l i used).2.1.length = used.length ∧
      (matchLoop s2 mdist l i used).2.1.countP (fun b => b) =
        used.countP (fun b => b) + (matchLoop s2 mdist l i used).2.2 := by
  intro l
  induction l with
  | nil => intro i used; simp [matchLoop]
  | cons c rest ih =>
      intro i used
      unfold matchLoop
      cases hscan : scanWindow c s2 used (((i : Int) - mdist).toNat)
          ((min ((i : Int) + mdist + 1) (s2.length : Int)).toNat -
            ((i : Int) - mdist).toNat) with
      | none =>
          have := ih (i + 1) used
          constructor
          · exact this.1
          · exact this.2
      | some j =>
          have hunused := scanWindow_some_unused c s2 _ _ used j hscan
          have hset := countP_id_set used j hunused
          have hih := ih (i + 1) (used.set j true)
          constructor
          · show (matchLoop s2 mdist rest (i + 1) (used.set j true)).2.1.length = used.length
            rw [hih.1, List.length_set]
          · show (matchLoop s2 mdist rest (i + 1) (used.set j true)).2.1.countP (fun b => b) =
              used.countP (fun b => b) +
                ((matchLoop s2 mdist rest (i + 1) (used.set j true)).2.2 + 1)
            rw [hih.2, hset]
            omega

/-- The matched flags of `s1` are aligned with `s1` and count the
matches. -/
lemma matchLoop_flags (s2 : List Char) (mdist : Int) :
    ∀ (l : List Char) (i : Nat) (used : List Bool),
      (matchLoop s2 mdist l i used).1.length = l.length ∧
      (matchLoop s2 mdist l i used).2.2 =
        (matchLoop s2 mdist l i used).1.countP (fun b => b) := by
  intro l
  induction l with
  | nil => intro i used; simp [matchLoop]
  | cons c rest ih =>
      intro i used
      unfold matchLoop
      cases hscan : scanWindow c s2 used (((i : Int) - mdist).toNat)
          ((min ((i : Int) + mdist + 1) (s2.length : Int)).toNat -
            ((i : Int) - mdist).toNat) with
      | none =>
          have := ih (i + 1) used
          constructor
          · simp [this.1]
          · simp [List.countP_cons, this.2]
      | some j =>
          have := ih (i + 1) (used.set j true)
          constructor
          · simp [this.1]
          · simp [List.countP_cons, this.2]

/-- The matched-character sequence of a list has as many elements as its
flag list has set flags. -/
lemma filter_zip_length :
    ∀ (l : List Char) (fl : List Bool), l.length = fl.length →
      (((l.zip fl).filter fun p => p.2).map fun p => p.1).length =
        fl.countP fun b => b := by
  intro l
  induction l with
  | nil =>
      intro fl h
      have : fl = [] := List.length_eq_zero.mp h.symm
      subst this
      rfl
  | cons c cs ih =>
      intro fl h
      cases fl with
      | nil => simp at h
      | cons b bs =>
          rw [List.zip_cons_cons, List.filter_cons]
          cases hb : b <;>
            simp [List.countP_cons, hb, ih bs (by simpa using h)]

lemma commonPfx_le : ∀ (l1 l2 : List Char) (fuel : Nat), commonPfx l1 l2 fuel ≤ fuel := by
  intro l1
  induction l1 with
  | nil =>
      intro l2 fuel
      have h0 : commonPfx [] l2 fuel = 0 := by cases l2 <;> cases fuel <;> rfl
      omega
  | cons a as ih =>
      intro l2 fuel
      cases l2 with
      | nil =>
          have h0 : commonPfx (a :: as) [] fuel = 0 := by cases fuel <;> rfl
          omega
      | cons b bs =>
          cases fuel with
          | zero => exact le_of_eq rfl
          | succ n =>
              have heq : commonPfx (a :: as) (b :: bs) (n + 1) =
                  if a == b then 1 + commonPfx as bs n else 0 := rfl
              rw [heq]
              split
              · have := ih bs n
                omega
              · omega

/-- The Jaro-Winkler score formula stays within the unit interval. -/
lemma jwScore_bounds (m len1 len2 t pfx : Nat)
    (hm : 1 ≤ m) (h1 : m ≤ len1) (h2 : m ≤ len2) (ht : t ≤ m) (hp : pfx ≤ 4) :
    0 ≤ jwScore m len1 len2 t pfx ∧ jwScore m len1 len2 t pfx ≤ 1 := by
  unfold jwScore
  have hmq : (1 : ℚ) ≤ (m : ℚ) := by exact_mod_cast hm
  have h1q : (m : ℚ) ≤ (len1 : ℚ) := by exact_mod_cast h1
  have h2q : (m : ℚ) ≤ (len2 : ℚ) := by exact_mod_cast h2
  have htq : (t : ℚ) ≤ (m : ℚ) := by exact_mod_cast ht
  have hpq : (pfx : ℚ) ≤ 4 := by exact_mod_cast hp
  have hp0 : (0 : ℚ) ≤ (pfx : ℚ) := by positivity
  have hl1 : (0 : ℚ) < (len1 : ℚ) := lt_of_lt_of_le (by norm_num) (le_trans hmq h1q)
  have hl2 : (0 : ℚ) < (len2 : ℚ) := lt_of_lt_of_le (by norm_num) (le_trans hmq h2q)
  have hm0 : (0 : ℚ) < (m : ℚ) := lt_of_lt_of_le (by norm_num) hmq
  have ha0 : (0 : ℚ) ≤ (m : ℚ) / len1 := by positivity
  have ha1 : (m : ℚ) / len1 ≤ 1 := (div_le_one hl1).mpr h1q
  have hb0 : (0 : ℚ) ≤ (m : ℚ) / len2 := by positivity
  have hb1 : (m : ℚ) / len2 ≤ 1 := (div_le_one hl2).mpr h2q
  have hc0 : (0 : ℚ) ≤ ((m : ℚ) - t) / m := by
    apply div_nonneg _ (le_of_lt hm0)
    linarith
  have hc1 : ((m : ℚ) - t) / m ≤ 1 := by
    rw [div_le_one hm0]
    have : (0 : ℚ) ≤ (t : ℚ) := by positivity
    linarith
  set jaro : ℚ := ((m : ℚ) / len1 + (m : ℚ) / len2 + ((m : ℚ) - t) / m) / 3 with hjaro
  have hj0 : (0 : ℚ) ≤ jaro := by rw [hjaro]; linarith
  have hj1 : jaro ≤ 1 := by rw [hjaro]; linarith
  have hq1 : (pfx : ℚ) * (1 / 10) ≤ 1 := by linarith
  have hq0 : (0 : ℚ) ≤ (pfx : ℚ) * (1 / 10) := by positivity
  constructor
  · have : (0 : ℚ) ≤ (pfx : ℚ) * (1 / 10) * (1 - jaro) := by
      apply mul_nonneg hq0
      linarith
    linarith
  · nlinarith [mul_nonneg (sub_nonneg.mpr hq1) (sub_nonneg.mpr hj1)]

/-- C9: the Jaro-Winkler distance always lies in the closed unit
interval — the Winkler boost (prefix ≤ 4, factor 0.1) cannot push the
score above 1, and no branch is negative. -/
theorem jaro_winkler_bounds_c9 (s1 s2 : String) :
    0 ≤ jaro_winkler s1 s2 ∧ jaro_winkler s1 s2 ≤ 1 := by
  unfold jaro_winkler
  split
  · norm_num
  · simp only []
    split
    · norm_num
    · rename_i hlen
      split
      · norm_num
      · rename_i hm
        set l1 := s1.toList
        set l2 := s2.toList
        set mdist : Int := (max l1.length l2.length : Int) / 2 - 1 with hmd
        have hflags := matchLoop_flags l2 mdist l1 0 (List.replicate l2.length false)
        have hused := matchLoop_used l2 mdist l1 0 (List.replicate l2.length false)
        set res := matchLoop l2 mdist l1 0 (List.replicate l2.length false) with hres
        have hm1 : 1 ≤ res.2.2 := Nat.one_le_iff_ne_zero.mpr hm
        have hmlen1 : res.2.2 ≤ l1.length := by
          rw [hflags.2, ← hflags.1]
          exact List.countP_le_length _
        have hmlen2 : res.2.2 ≤ l2.length := by
          have hrep : (List.replicate l2.length false).countP (fun b => b) = 0 := by
            rw [List.countP_eq_zero]
            intro a ha
            rw [List.eq_of_mem_replicate ha]
            simp
          have := hused.2
          rw [hrep] at this
          calc res.2.2 = res.2.1.countP (fun b => b) := by omega
            _ ≤ res.2.1.length := List.countP_le_length _
            _ = l2.length := by rw [hused.1, List.length_replicate]
        have htle : transCount l1 l2 res.1 res.2.1 ≤ res.2.2 := by
          unfold transCount
          refine le_trans (Nat.div_le_self _ 2) (le_trans (List.countP_le_length _) ?_)
          have hzl : ((((l1.zip res.1).filter fun p => p.2).map fun p => p.1).zip
              (((l2.zip res.2.1).filter fun p => p.2).map fun p => p.1)).length ≤
              (((l1.zip res.1).filter fun p => p.2).map fun p => p.1).length := by
            rw [List.length_zip]
            omega
          refine le_trans hzl ?_
          rw [filter_zip_length l1 res.1 hflags.1.symm, ← hflags.2]
        exact jwScore_bounds res.2.2 l1.length l2.length
          (transCount l1 l2 res.1 res.2.1) (commonPfx l1 l2 4)
          hm1 hmlen1 hmlen2 htle (commonPfx_le l1 l2 4)

/-- C6: for a history whose rows for business key `k` are all closed
(not current, with a `valid_to` before the new ingestion timestamp) and
a snapshot containing `k`, the merge leaves every key-`k` history row
unchanged and appends exactly one brand-new row with
`valid_from = ingestion_ts`, `valid_to = null`, `is_current = true`
(built from the first snapshot row with that key); moreover the closed
part of the history is passed through unchanged at the head of the
result — no closed row is re-opened or modified. -/
theorem scd2_resurrection_c6 {α : Type} (hist : List (HistRow α)) (snap : List (SnapRow α))
    (ts : Int) (f : α → String) (k : String) (r : SnapRow α)
    (hclosed : ∀ rw ∈ hist, rw.key = k → rw.is_current = false)
    (hlater : ∀ rw ∈ hist, rw.key = k → ∃ t, rw.valid_to = some t ∧ t < ts)
    (hfind : snap.find? (fun s => s.key == k) = some r) :
    (apply_scd2 snap hist ts f).filter (fun rw => rw.key == k) =
      hist.filter (fun rw => rw.key == k) ++ [⟨k, r.data, f r.data, ts, none, true⟩] ∧
    List.IsPrefix (closed_history hist) (apply_scd2 snap hist ts f) := by
  have hrk : r.key = k := by simpa using List.find?_some hfind
  cases hist with
  | nil =>
      constructor
      · rw [apply_scd2_nil, List.filter_map]
        have hpred : ((fun rw : HistRow α => rw.key == k) ∘ mkOpenRow ts) =
            fun p : SnapRow α × String => p.1.key == k := rfl
        rw [hpred, snapshot_hashed_filter_key snap f k r hfind]
        simp [mkOpenRow, hrk]
      · exact ⟨apply_scd2 snap [] ts f, by simp [closed_history]⟩
  | cons h0 hrest =>
      have hcur : (current_history (h0 :: hrest)).filter (fun c => c.key == k) = [] :=
        current_history_filter_key_nil _ k hclosed
      have hjk : (leftJoinHash (snapshot_hashed snap f)
          (current_history (h0 :: hrest))).filter (fun t => t.1.key == k) =
          [(r, f r.data, none)] := by
        rw [leftJoinHash_filter_key, snapshot_hashed_filter_key snap f k r hfind]
        apply leftJoinHash_single_nomatch
        show (current_history (h0 :: hrest)).filter (fun c => c.key == r.key) = []
        rw [hrk]
        exact hcur
      have hpart2 : ∀ q : HistRow α → Bool,
          ((current_history (h0 :: hrest)).filter q).filter (fun rw => rw.key == k) = [] := by
        intro q
        rw [filter_swap, hcur]
        rfl
      constructor
      · rw [apply_scd2_cons]
        simp only [List.filter_append]
        have hpart1 : (closed_history (h0 :: hrest)).filter (fun rw => rw.key == k) =
            (h0 :: hrest).filter (fun rw => rw.key == k) := by
          unfold closed_history
          rw [List.filter_filter]
          refine List.filter_congr fun rw hrw => ?_
          by_cases hkk : rw.key = k
          · simp [hclosed rw hrw hkk, hkk]
          · simp [hkk]
        have hpart3 : ((((current_history (h0 :: hrest)).filter fun c =>
              (keys_to_close (leftJoinHash (snapshot_hashed snap f)
                  (current_history (h0 :: hrest)))
                (current_history (h0 :: hrest)) (snapshot_hashed snap f)).contains c.key).map
                fun c => { c with valid_to := some ts, is_current := false }).filter
              fun rw => rw.key == k) = [] := by
          rw [List.filter_map]
          have hcomp : ((fun rw : HistRow α => rw.key == k) ∘
              fun c => { c with valid_to := some ts, is_current := false }) =
              fun c : HistRow α => c.key == k := rfl
          rw [hcomp, hpart2]
          rfl
        have hpart4 : (new_entries (leftJoinHash (snapshot_hashed snap f)
              (current_history (h0 :: hrest))) ts).filter (fun rw => rw.key == k) =
            [⟨k, r.data, f r.data, ts, none, true⟩] := by
          unfold new_entries new_records changed_records
          rw [List.filter_map]
          have hcomp : ((fun rw : HistRow α => rw.key == k) ∘
              fun t : SnapRow α × String × Option String =>
                (⟨t.1.key, t.1.data, t.2.1, ts, none, true⟩ : HistRow α)) =
              fun t : SnapRow α × String × Option String => t.1.key == k := rfl
          rw [hcomp, List.filter_append, filter_swap, hjk, filter_swap, hjk]
          simp [hrk]
        rw [hpart1, hpart2, hpart3, hpart4]
        simp
      · rw [apply_scd2_cons, List.append_assoc, List.append_assoc]
        exact List.prefix_append _ _

/-- C6, witness: the spec's concrete resurrection scenario. -/
theorem scd2_resurrection_c6_witness :
    ((apply_scd2 [(⟨"1", "A"⟩ : SnapRow String)]
        [(⟨"1", "Old", "h0", 1, some 2, false⟩ : HistRow String)] 3 fun s => s).filter
        (fun rw => rw.key == "1") =
      [(⟨"1", "Old", "h0", 1, some 2, false⟩ : HistRow String)].filter (fun rw => rw.key == "1")
        ++ [⟨"1", "A", "A", 3, none, true⟩]) ∧
    List.IsPrefix (closed_history [(⟨"1", "Old", "h0", 1, some 2, false⟩ : HistRow String)])
      (apply_scd2 [(⟨"1", "A"⟩ : SnapRow String)]
        [⟨"1", "Old", "h0", 1, some 2, false⟩] 3 fun s => s) :=
  scd2_resurrection_c6 [⟨"1", "Old", "h0", 1, some 2, false⟩] [⟨"1", "A"⟩] 3 (fun s => s)
    "1" ⟨"1", "A"⟩
    (by decide)
    (by
      intro rw hrw hk
      simp only [List.mem_singleton] at hrw
      subst hrw
      exact ⟨2, rfl, by decide⟩)
    (by decide)

/-- The first `p`-element of a pairwise-ordered list is related to every
`p`-element. -/
lemma find?_pairwise_min {A : Type} (R : A → A → Prop) (p : A → Bool) :
    ∀ (l : List A) (c : A), l.Pairwise R → l.find? p = some c →
      ∀ d ∈ l, p d = true → c = d ∨ R c d := by
  intro l
  induction l with
  | nil => intro c _ h; simp at h
  | cons x xs ih =>
      intro c hpw hfind d hd hpd
      rcases List.pairwise_cons.mp hpw with ⟨hx, hxs⟩
      by_cases hpx : p x = true
      · rw [List.find?_cons_of_pos _ hpx] at hfind
        cases hfind
        rcases List.mem_cons.mp hd with h | h
        · exact Or.inl h.symm
        · exact Or.inr (hx d h)
      · rw [List.find?_cons_of_neg _ (by simpa using hpx)] at hfind
        rcases List.mem_cons.mp hd with h | h
        · rw [h] at hpd
          exact absurd hpd hpx
        · exact ih c hxs hfind d h hpd

lemma flatMap_eq_map_of_singleton {A B : Type} (F : A → List B) (g : A → B) :
    ∀ l : List A, (∀ a ∈ l, F a = [g a]) → l.flatMap F = l.map g := by
  intro l
  induction l with
  | nil => intro _; rfl
  | cons x xs ih =>
      intro h
      rw [List.flatMap_cons, h x (List.mem_cons_self _ _), ih fun a ha =>
        h a (List.mem_cons_of_mem _ ha)]
      rfl

/-- C7: the resolver accepts only candidates scoring strictly above 0.90,
the selected match for a holder name is score-maximal and, among equal
scores, has the lexicographically smallest registry id; and the spec's
concrete tie-break example resolves "Pharma Corp" to ORG-001. -/
theorem fuzzy_tiebreak_c7 {β : Type} (df : List (EparRow β)) (spor : List SporRow)
    (m : String) (c : Cand)
    (hm : (matchesFor df spor).find? (fun d => d.mah == m) = some c) :
    ((9 : ℚ) / 10 < c.score ∧ c.mah = m ∧
      ∀ o ∈ spor, (9 : ℚ) / 10 < jaro_winkler (lowerStr m) (lowerStr o.name) →
        jaro_winkler (lowerStr m) (lowerStr o.name) < c.score ∨
          (jaro_winkler (lowerStr m) (lowerStr o.name) = c.score ∧
            strLe c.spor_id o.org_id = true)) ∧
    enrich_epar [(⟨"P1", "Pharma Corp", ()⟩ : EparRow Unit)]
        [⟨"Pharma Corp", "ORG-002"⟩, ⟨"Pharma Corp", "ORG-001"⟩] =
      [⟨⟨"P1", "Pharma Corp", ()⟩, some "ORG-001"⟩] := by
  have hbr : mkRat 9 10 = (9 : ℚ) / 10 := by
    rw [Rat.mkRat_eq_divInt, Rat.divInt_eq_div]
    norm_num
  have hcmem : c ∈ matchesFor df spor := List.mem_of_find?_eq_some hm
  have hmah : c.mah = m := by simpa using List.find?_some hm
  unfold matchesFor at hm hcmem
  have hcsorted : c ∈ List.insertionSort CandLE ((crossScored (mahNames df) spor).filter
      fun c => decide (mkRat 9 10 < c.score)) :=
    (uniqueByAux_sublist Cand.mah [] _).subset hcmem
  have hcfil : c ∈ (crossScored (mahNames df) spor).filter
      fun c => decide (mkRat 9 10 < c.score) :=
    (List.perm_insertionSort CandLE _).subset hcsorted
  have hscore : (9 : ℚ) / 10 < c.score := by
    have := (List.mem_filter.mp hcfil).2
    rw [← hbr]
    simpa using this
  have hmnames : m ∈ mahNames df := by
    have hccross := (List.mem_filter.mp hcfil).1
    obtain ⟨mah, hmah2, hcm⟩ := List.mem_flatMap.mp hccross
    obtain ⟨o, _, hoe⟩ := List.mem_map.mp hcm
    have : c.mah = mah := by rw [← hoe]
    rw [← hmah, this]
    exact hmah2
  have hfsorted : (List.insertionSort CandLE ((crossScored (mahNames df) spor).filter
      fun c => decide (mkRat 9 10 < c.score))).find? (fun d => d.mah == m) = some c := by
    rw [← uniqueBy_find? Cand.mah m]
    exact hm
  have hpw : (List.insertionSort CandLE ((crossScored (mahNames df) spor).filter
      fun c => decide (mkRat 9 10 < c.score))).Pairwise CandLE :=
    List.sorted_insertionSort CandLE _
  refine ⟨⟨hscore, hmah, ?_⟩, by decide⟩
  intro o ho hoth
  have hdcross : (⟨m, o.name, o.org_id, jaro_winkler (lowerStr m) (lowerStr o.name)⟩ : Cand) ∈
      crossScored (mahNames df) spor :=
    List.mem_flatMap.mpr ⟨m, hmnames, List.mem_map_of_mem _ ho⟩
  have hdfil : (⟨m, o.name, o.org_id, jaro_winkler (lowerStr m) (lowerStr o.name)⟩ : Cand) ∈
      (crossScored (mahNames df) spor).filter fun c => decide (mkRat 9 10 < c.score) :=
    List.mem_filter.mpr ⟨hdcross, by rw [hbr]; simpa using hoth⟩
  have hdsorted : (⟨m, o.name, o.org_id, jaro_winkler (lowerStr m) (lowerStr o.name)⟩ : Cand) ∈
      List.insertionSort CandLE ((crossScored (mahNames df) spor).filter
        fun c => decide (mkRat 9 10 < c.score)) :=
    (List.perm_insertionSort CandLE _).symm.subset hdfil
  have hmin := find?_pairwise_min CandLE (fun d => d.mah == m) _ c hpw hfsorted
    ⟨m, o.name, o.org_id, jaro_winkler (lowerStr m) (lowerStr o.name)⟩ hdsorted (by simp)
  rcases hmin with heq | hle
  · subst heq
    right
    refine ⟨rfl, ?_⟩
    have hrefl : ∀ l : List Char, strLeChars l l = true := by
      intro l
      induction l with
      | nil => rfl
      | cons x xs ih => unfold strLeChars; rw [if_pos (by simp)]; exact ih
    exact hrefl _
  · unfold CandLE at hle
    rcases hle with h | ⟨h, h'⟩
    · exact Or.inl h
    · exact Or.inr ⟨h.symm, h'⟩

/-- C7, witness: the spec's tie-break registry selects the entry with
score 1 and the smaller id ORG-001. -/
theorem fuzzy_tiebreak_c7_witness :
    ((matchesFor ([⟨"P1", "Pharma Corp", ()⟩] : List (EparRow Unit))
        [⟨"Pharma Corp", "ORG-002"⟩, ⟨"Pharma Corp", "ORG-001"⟩]).find?
          (fun d => d.mah == "Pharma Corp") =
        some ⟨"Pharma Corp", "Pharma Corp", "ORG-001", 1⟩) ∧
    (((9 : ℚ) / 10 < (Cand.mk "Pharma Corp" "Pharma Corp" "ORG-001" 1).score ∧
      (Cand.mk "Pharma Corp" "Pharma Corp" "ORG-001" 1).mah = "Pharma Corp" ∧
      ∀ o ∈ ([⟨"Pharma Corp", "ORG-002"⟩, ⟨"Pharma Corp", "ORG-001"⟩] : List SporRow),
        (9 : ℚ) / 10 < jaro_winkler (lowerStr "Pharma Corp") (lowerStr o.name) →
          jaro_winkler (lowerStr "Pharma Corp") (lowerStr o.name) <
              (Cand.mk "Pharma Corp" "Pharma Corp" "ORG-001" 1).score ∨
            (jaro_winkler (lowerStr "Pharma Corp") (lowerStr o.name) =
                (Cand.mk "Pharma Corp" "Pharma Corp" "ORG-001" 1).score ∧
              strLe (Cand.mk "Pharma Corp" "Pharma Corp" "ORG-001" 1).spor_id
                o.org_id = true)) ∧
      enrich_epar [(⟨"P1", "Pharma Corp", ()⟩ : EparRow Unit)]
          [⟨"Pharma Corp", "ORG-002"⟩, ⟨"Pharma Corp", "ORG-001"⟩] =
        [⟨⟨"P1", "Pharma Corp", ()⟩, some "ORG-001"⟩]) :=
  ⟨by decide,
   fuzzy_tiebreak_c7 [⟨"P1", "Pharma Corp", ()⟩]
     [⟨"Pharma Corp", "ORG-002"⟩, ⟨"Pharma Corp", "ORG-001"⟩]
     "Pharma Corp" ⟨"Pharma Corp", "Pharma Corp", "ORG-001", 1⟩ (by decide)⟩

/-- C10: enrichment neither drops nor duplicates rows — for every input
and every registry (duplicate registry names included) the output is a
permutation of the input rows each carrying a single added
`spor_mah_id` (null when no sufficiently close registry entry exists),
so the height is exactly the input height. -/
theorem enrich_preserves_rows_c10 {β : Type} (df : List (EparRow β)) (spor : List SporRow) :
    (enrich_epar df spor).length = df.length ∧
    (enrich_epar df spor).Perm (df.map fun r => ⟨r, resolvedId df spor r⟩) := by
  unfold enrich_epar resolvedId
  by_cases hsp : spor.isEmpty
  · simp only [hsp, if_true]
    exact ⟨by rw [List.length_map], List.Perm.refl _⟩
  · have hspf : spor.isEmpty = false := by simpa using hsp
    simp only [hspf, Bool.false_eq_true, if_false]
    have hjoined : (df.flatMap fun r =>
        if ((matchesFor df spor).filter fun c =>
            c.mah == r.marketing_authorisation_holder).isEmpty then
          [(⟨r, none⟩ : EnrichedRow β)]
        else ((matchesFor df spor).filter fun c =>
            c.mah == r.marketing_authorisation_holder).map fun c =>
          (⟨r, some c.spor_id⟩ : EnrichedRow β)) =
        df.map fun r => (⟨r, ((matchesFor df spor).find? fun c =>
          c.mah == r.marketing_authorisation_holder).map fun c => c.spor_id⟩ : EnrichedRow β) := by
      apply flatMap_eq_map_of_singleton
      intro r _
      have hfe : ((matchesFor df spor).filter fun c =>
          c.mah == r.marketing_authorisation_holder) =
          ((matchesFor df spor).find? fun c =>
            c.mah == r.marketing_authorisation_holder).toList :=
        countP_le_one_filter _ _
          (uniqueBy_countP_le_one Cand.mah r.marketing_authorisation_holder _)
      rcases hfind : (matchesFor df spor).find? fun c =>
          c.mah == r.marketing_authorisation_holder with _ | c0
      · rw [hfe, hfind]
        rfl
      · rw [hfe, hfind]
        rfl
    rw [hjoined]
    exact ⟨by rw [(List.perm_insertionSort ProdLE _).length_eq, List.length_map],
      List.perm_insertionSort ProdLE _⟩

end EparEtl
